import Mathlib

/-!
Verification development for the quantum-chemistry core of this repository
(`Quantum_chemistry.py`).  The Pauli algebra that the source manipulates
through qiskit's `SparsePauliOp` is embedded shallowly:

* coefficients are Gaussian rationals `GQ` (the source works with complex
  floating-point coefficients; the algebra itself is exact, and the
  `simplify` tolerance is modelled as dropping exactly-zero coefficients);
* an `n`-qubit Pauli label is a pair of flag vectors `z x : Fin n → Bool`
  (qiskit's symplectic representation; a qubit with both flags set is `Y`);
* a `SparsePauliOp` is a list of coefficient/label pairs, and qiskit's
  `compose`, `adjoint`, `simplify`, scalar multiplication and `+` are
  modelled on it.

Conventions of the external qiskit library that the source relies on are
modelled from qiskit's documented behaviour: `PauliList.from_symplectic`
with default phase produces the plain label Paulis, multiplication of
labels satisfies `σ(z1,x1)·σ(z2,x2) = i^g · σ(z1⊕z2, x1⊕x2)` with the
phase `g` as defined below (validated against the explicit 2×2 Pauli
matrices in `pauliMatMul_sound`), and `A.compose(B)` composes in circuit
order (apply `A` first, then `B`), i.e. it is the matrix product `B·A`.
-/

/-- Gaussian rationals: the exact model of the complex coefficients used by
the source. -/
structure GQ where
  re : ℚ
  im : ℚ
deriving DecidableEq

namespace GQ

@[ext] theorem ext {a b : GQ} (hre : a.re = b.re) (him : a.im = b.im) : a = b := by
  cases a; cases b; simp_all

theorem eq_iff {a b : GQ} : a = b ↔ a.re = b.re ∧ a.im = b.im := by
  constructor
  · rintro rfl; exact ⟨rfl, rfl⟩
  · rintro ⟨h1, h2⟩; exact ext h1 h2

instance : Zero GQ := ⟨⟨0, 0⟩⟩
instance : One GQ := ⟨⟨1, 0⟩⟩
instance : Add GQ := ⟨fun a b => ⟨a.re + b.re, a.im + b.im⟩⟩
instance : Neg GQ := ⟨fun a => ⟨-a.re, -a.im⟩⟩
instance : Mul GQ := ⟨fun a b => ⟨a.re * b.re - a.im * b.im, a.re * b.im + a.im * b.re⟩⟩

@[simp] theorem zero_re : (0 : GQ).re = 0 := rfl
@[simp] theorem zero_im : (0 : GQ).im = 0 := rfl
@[simp] theorem one_re : (1 : GQ).re = 1 := rfl
@[simp] theorem one_im : (1 : GQ).im = 0 := rfl
@[simp] theorem add_re (a b : GQ) : (a + b).re = a.re + b.re := rfl
@[simp] theorem add_im (a b : GQ) : (a + b).im = a.im + b.im := rfl
@[simp] theorem neg_re (a : GQ) : (-a).re = -a.re := rfl
@[simp] theorem neg_im (a : GQ) : (-a).im = -a.im := rfl
@[simp] theorem mul_re (a b : GQ) : (a * b).re = a.re * b.re - a.im * b.im := rfl
@[simp] theorem mul_im (a b : GQ) : (a * b).im = a.re * b.im + a.im * b.re := rfl

instance : CommRing GQ where
  add_assoc a b c := by ext <;> simp <;> ring
  zero_add a := by ext <;> simp
  add_zero a := by ext <;> simp
  add_comm a b := by ext <;> simp <;> ring
  mul_assoc a b c := by ext <;> simp <;> ring
  one_mul a := by ext <;> simp
  mul_one a := by ext <;> simp
  left_distrib a b c := by ext <;> simp <;> ring
  right_distrib a b c := by ext <;> simp <;> ring
  mul_comm a b := by ext <;> simp <;> ring
  zero_mul a := by ext <;> simp
  mul_zero a := by ext <;> simp
  neg_add_cancel a := by ext <;> simp
  nsmul := nsmulRec
  zsmul := zsmulRec

instance : Nontrivial GQ :=
  ⟨⟨0, 1, fun h => by
    have h2 := congrArg GQ.re h
    norm_num at h2⟩⟩

/-- Complex conjugation on the coefficients. -/
def conj (a : GQ) : GQ := ⟨a.re, -a.im⟩

@[simp] theorem conj_re (a : GQ) : (conj a).re = a.re := rfl
@[simp] theorem conj_im (a : GQ) : (conj a).im = -a.im := rfl

@[simp] theorem conj_zero : conj 0 = 0 := by ext <;> simp
@[simp] theorem conj_one : conj 1 = 1 := by ext <;> simp
theorem conj_add (a b : GQ) : conj (a + b) = conj a + conj b := by ext <;> simp <;> ring
theorem conj_mul (a b : GQ) : conj (a * b) = conj a * conj b := by ext <;> simp <;> ring
@[simp] theorem conj_conj (a : GQ) : conj (conj a) = a := by ext <;> simp
theorem conj_neg (a : GQ) : conj (-a) = -conj a := by ext <;> simp

/-- Embedding of the rationals (real scalars) into the coefficients. -/
def ofRat (q : ℚ) : GQ := ⟨q, 0⟩

@[simp] theorem ofRat_re (q : ℚ) : (ofRat q).re = q := rfl
@[simp] theorem ofRat_im (q : ℚ) : (ofRat q).im = 0 := rfl
@[simp] theorem conj_ofRat (q : ℚ) : conj (ofRat q) = ofRat q := by ext <;> simp

/-- The imaginary unit. -/
def iu : GQ := ⟨0, 1⟩

/-- Squared norm; shows the coefficient ring has no zero divisors. -/
def normSq (a : GQ) : ℚ := a.re * a.re + a.im * a.im

theorem normSq_mul (a b : GQ) : normSq (a * b) = normSq a * normSq b := by
  simp [normSq]; ring

theorem normSq_eq_zero {a : GQ} (h : normSq a = 0) : a = 0 := by
  have h1 : a.re * a.re + a.im * a.im = 0 := h
  have hre : a.re = 0 := by nlinarith [sq_nonneg a.re, sq_nonneg a.im]
  have him : a.im = 0 := by nlinarith [sq_nonneg a.re, sq_nonneg a.im]
  ext <;> simp [hre, him]

theorem mul_eq_zero_iff {a b : GQ} : a * b = 0 ↔ a = 0 ∨ b = 0 := by
  constructor
  · intro h
    have : normSq a * normSq b = 0 := by
      rw [← normSq_mul, h]; simp [normSq]
    rcases mul_eq_zero.mp this with h' | h'
    · exact Or.inl (normSq_eq_zero h')
    · exact Or.inr (normSq_eq_zero h')
  · rintro (rfl | rfl) <;> simp

end GQ

/-- Powers of the imaginary unit, indexed by a phase exponent in `ZMod 4`. -/
def ipow (g : ZMod 4) : GQ := GQ.iu ^ g.val

theorem iu_pow_four : GQ.iu ^ 4 = 1 := by
  rw [GQ.eq_iff]
  norm_num [pow_succ, GQ.iu]

theorem iu_pow_mod (m : ℕ) : GQ.iu ^ (m % 4) = GQ.iu ^ m := by
  conv_rhs => rw [← Nat.div_add_mod m 4]
  rw [pow_add, pow_mul, iu_pow_four, one_pow, one_mul]

theorem ipow_add (a b : ZMod 4) : ipow (a + b) = ipow a * ipow b := by
  unfold ipow
  rw [ZMod.val_add, iu_pow_mod, pow_add]

@[simp] theorem ipow_zero : ipow 0 = 1 := by
  show GQ.iu ^ (0 : ZMod 4).val = 1
  rw [show (0 : ZMod 4).val = 0 from rfl, pow_zero]

@[simp] theorem ipow_one : ipow 1 = GQ.iu := by
  show GQ.iu ^ (1 : ZMod 4).val = GQ.iu
  rw [show (1 : ZMod 4).val = 1 from rfl, pow_one]

@[simp] theorem ipow_two : ipow 2 = -1 := by
  show GQ.iu ^ (2 : ZMod 4).val = -1
  rw [show (2 : ZMod 4).val = 2 from rfl, GQ.eq_iff]
  norm_num [pow_succ, GQ.iu]

@[simp] theorem ipow_three : ipow 3 = -GQ.iu := by
  show GQ.iu ^ (3 : ZMod 4).val = -GQ.iu
  rw [show (3 : ZMod 4).val = 3 from rfl, GQ.eq_iff]
  norm_num [pow_succ, GQ.iu]

theorem ipow_add_two (a : ZMod 4) : ipow (a + 2) = -ipow a := by
  rw [ipow_add, ipow_two, mul_neg_one]

theorem conj_ipow (a : ZMod 4) : GQ.conj (ipow a) = ipow (-a) := by
  have h : a = 0 ∨ a = 1 ∨ a = 2 ∨ a = 3 := by revert a; decide
  rcases h with rfl | rfl | rfl | rfl
  · rw [ipow_zero, GQ.conj_one, neg_zero, ipow_zero]
  · rw [ipow_one, show -(1 : ZMod 4) = 3 by decide, ipow_three]
    ext <;> simp [GQ.iu]
  · rw [ipow_two, show -(2 : ZMod 4) = 2 by decide, ipow_two, GQ.conj_neg, GQ.conj_one]
  · rw [ipow_three, show -(3 : ZMod 4) = 1 by decide, ipow_one, GQ.conj_neg]
    ext <;> simp [GQ.iu]

/-- Booleans as phase exponents. -/
def b4 (b : Bool) : ZMod 4 := if b then 1 else 0

/-- Single-qubit phase of the product of two Pauli labels in the symplectic
representation: `σ(z1,x1) · σ(z2,x2) = i^(gq z1 x1 z2 x2) · σ(z1⊕z2, x1⊕x2)`,
where `σ(0,0)=I`, `σ(0,1)=X`, `σ(1,0)=Z`, `σ(1,1)=Y`.  This is the label
(group-phase) convention used by qiskit; it is validated against the
explicit 2×2 matrices in `pauliMatMul_sound` below. -/
def gq (z1 x1 z2 x2 : Bool) : ZMod 4 :=
  b4 ((xor z1 z2) && (xor x1 x2)) - b4 (z1 && x1) - b4 (z2 && x2) + 2 * b4 (x1 && z2)

theorem gq_self : ∀ z x : Bool, gq z x z x = 0 := by decide

/-- Swapping the factors changes the phase by twice the symplectic pairing. -/
theorem gq_swap : ∀ z1 x1 z2 x2 : Bool,
    gq z1 x1 z2 x2 = gq z2 x2 z1 x1 + 2 * (b4 (x1 && z2) + b4 (z1 && x2)) := by
  decide

/-- The phase of the reversed product is the negated phase (adjoints). -/
theorem gq_antisymm : ∀ z1 x1 z2 x2 : Bool, gq z2 x2 z1 x1 = -gq z1 x1 z2 x2 := by
  decide

/-- The four single-qubit Pauli label matrices `I, X, Z, Y` selected by the
two symplectic flags. -/
def pauliMat (z x : Bool) : Matrix (Fin 2) (Fin 2) GQ :=
  match z, x with
  | false, false => !![1, 0; 0, 1]
  | false, true => !![0, 1; 1, 0]
  | true, false => !![1, 0; 0, -1]
  | true, true => !![0, -GQ.iu; GQ.iu, 0]

/-- Soundness of the phase `gq` against the actual 2×2 Pauli matrices. -/
theorem pauliMatMul_sound (z1 x1 z2 x2 : Bool) :
    pauliMat z1 x1 * pauliMat z2 x2 =
      ipow (gq z1 x1 z2 x2) • pauliMat (xor z1 z2) (xor x1 x2) := by
  fin_cases z1 <;> fin_cases x1 <;> fin_cases z2 <;> fin_cases x2 <;>
    first
    | (rw [show gq false false false false = 0 by decide]
       funext i j
       fin_cases i <;> fin_cases j <;>
         simp [pauliMat, Matrix.mul_apply, Matrix.smul_apply, smul_eq_mul, Fin.sum_univ_two,
           GQ.eq_iff, GQ.iu])
    | (rw [show gq false false false true = 0 by decide]
       funext i j
       fin_cases i <;> fin_cases j <;>
         simp [pauliMat, Matrix.mul_apply, Matrix.smul_apply, smul_eq_mul, Fin.sum_univ_two,
           GQ.eq_iff, GQ.iu])
    | (rw [show gq false false true false = 0 by decide]
       funext i j
       fin_cases i <;> fin_cases j <;>
         simp [pauliMat, Matrix.mul_apply, Matrix.smul_apply, smul_eq_mul, Fin.sum_univ_two,
           GQ.eq_iff, GQ.iu])
    | (rw [show gq false false true true = 0 by decide]
       funext i j
       fin_cases i <;> fin_cases j <;>
         simp [pauliMat, Matrix.mul_apply, Matrix.smul_apply, smul_eq_mul, Fin.sum_univ_two,
           GQ.eq_iff, GQ.iu])
    | (rw [show gq false true false false = 0 by decide]
       funext i j
       fin_cases i <;> fin_cases j <;>
         simp [pauliMat, Matrix.mul_apply, Matrix.smul_apply, smul_eq_mul, Fin.sum_univ_two,
           GQ.eq_iff, GQ.iu])
    | (rw [show gq false true false true = 0 by decide]
       funext i j
       fin_cases i <;> fin_cases j <;>
         simp [pauliMat, Matrix.mul_apply, Matrix.smul_apply, smul_eq_mul, Fin.sum_univ_two,
           GQ.eq_iff, GQ.iu])
    | (rw [show gq false true true false = 3 by decide]
       funext i j
       fin_cases i <;> fin_cases j <;>
         simp [pauliMat, Matrix.mul_apply, Matrix.smul_apply, smul_eq_mul, Fin.sum_univ_two,
           GQ.eq_iff, GQ.iu])
    | (rw [show gq false true true true = 1 by decide]
       funext i j
       fin_cases i <;> fin_cases j <;>
         simp [pauliMat, Matrix.mul_apply, Matrix.smul_apply, smul_eq_mul, Fin.sum_univ_two,
           GQ.eq_iff, GQ.iu])
    | (rw [show gq true false false false = 0 by decide]
       funext i j
       fin_cases i <;> fin_cases j <;>
         simp [pauliMat, Matrix.mul_apply, Matrix.smul_apply, smul_eq_mul, Fin.sum_univ_two,
           GQ.eq_iff, GQ.iu])
    | (rw [show gq true false false true = 1 by decide]
       funext i j
       fin_cases i <;> fin_cases j <;>
         simp [pauliMat, Matrix.mul_apply, Matrix.smul_apply, smul_eq_mul, Fin.sum_univ_two,
           GQ.eq_iff, GQ.iu])
    | (rw [show gq true false true false = 0 by decide]
       funext i j
       fin_cases i <;> fin_cases j <;>
         simp [pauliMat, Matrix.mul_apply, Matrix.smul_apply, smul_eq_mul, Fin.sum_univ_two,
           GQ.eq_iff, GQ.iu])
    | (rw [show gq true false true true = 3 by decide]
       funext i j
       fin_cases i <;> fin_cases j <;>
         simp [pauliMat, Matrix.mul_apply, Matrix.smul_apply, smul_eq_mul, Fin.sum_univ_two,
           GQ.eq_iff, GQ.iu])
    | (rw [show gq true true false false = 0 by decide]
       funext i j
       fin_cases i <;> fin_cases j <;>
         simp [pauliMat, Matrix.mul_apply, Matrix.smul_apply, smul_eq_mul, Fin.sum_univ_two,
           GQ.eq_iff, GQ.iu])
    | (rw [show gq true true false true = 3 by decide]
       funext i j
       fin_cases i <;> fin_cases j <;>
         simp [pauliMat, Matrix.mul_apply, Matrix.smul_apply, smul_eq_mul, Fin.sum_univ_two,
           GQ.eq_iff, GQ.iu])
    | (rw [show gq true true true false = 1 by decide]
       funext i j
       fin_cases i <;> fin_cases j <;>
         simp [pauliMat, Matrix.mul_apply, Matrix.smul_apply, smul_eq_mul, Fin.sum_univ_two,
           GQ.eq_iff, GQ.iu])
    | (rw [show gq true true true true = 0 by decide]
       funext i j
       fin_cases i <;> fin_cases j <;>
         simp [pauliMat, Matrix.mul_apply, Matrix.smul_apply, smul_eq_mul, Fin.sum_univ_two,
           GQ.eq_iff, GQ.iu])

/-- An `n`-qubit Pauli label in qiskit's symplectic representation: `z`/`x`
flag vectors (both flags set on a qubit denotes `Y`).  Equality and grouping
key of `SparsePauliOp` terms. -/
structure PTerm (n : ℕ) where
  z : Fin n → Bool
  x : Fin n → Bool
deriving DecidableEq

/-- The identity label (no flags set). -/
def idP (n : ℕ) : PTerm n := ⟨fun _ => false, fun _ => false⟩

/-- Pattern of the product of two labels: componentwise XOR of the flags. -/
def pmulP {n : ℕ} (p q : PTerm n) : PTerm n :=
  ⟨fun k => xor (p.z k) (q.z k), fun k => xor (p.x k) (q.x k)⟩

/-- Accumulated phase (power of `i`) of the product of two labels. -/
def pmulG {n : ℕ} (p q : PTerm n) : ZMod 4 :=
  ∑ k, gq (p.z k) (p.x k) (q.z k) (q.x k)

/-- Total symplectic pairing of two labels. -/
def sympSum {n : ℕ} (p q : PTerm n) : ZMod 4 :=
  ∑ k, (b4 (p.x k && q.z k) + b4 (p.z k && q.x k))

theorem pmulP_self {n : ℕ} (p : PTerm n) : pmulP p p = idP n := by
  simp [pmulP, idP]

theorem pmulP_comm {n : ℕ} (p q : PTerm n) : pmulP p q = pmulP q p := by
  simp [pmulP]
  constructor <;> funext k <;> rw [Bool.xor_comm]

theorem pmulG_self {n : ℕ} (p : PTerm n) : pmulG p p = 0 := by
  unfold pmulG
  rw [Finset.sum_congr rfl (fun k _ => gq_self (p.z k) (p.x k))]
  simp

theorem pmulG_swap {n : ℕ} (p q : PTerm n) : pmulG p q = pmulG q p + 2 * sympSum p q := by
  unfold pmulG sympSum
  rw [Finset.mul_sum, ← Finset.sum_add_distrib]
  exact Finset.sum_congr rfl (fun k _ => gq_swap (p.z k) (p.x k) (q.z k) (q.x k))

theorem pmulG_antisymm {n : ℕ} (p q : PTerm n) : pmulG q p = -pmulG p q := by
  unfold pmulG
  rw [← Finset.sum_neg_distrib]
  exact Finset.sum_congr rfl (fun k _ => gq_antisymm (p.z k) (p.x k) (q.z k) (q.x k))

/-- Collapse of a symplectic sum when one `x` vector is the indicator of a
single qubit. -/
theorem sum_b4_indicator {n : ℕ} (i : Fin n) (f : Fin n → Bool) :
    (∑ k, b4 (decide (k = i) && f k)) = b4 (f i) := by
  rw [Finset.sum_eq_single i]
  · simp
  · intro b _ hb
    simp [hb, b4]
  · intro h
    exact absurd (Finset.mem_univ i) h

/-- A `SparsePauliOp`: a list of coefficient/label pairs. -/
abbrev SPOp (n : ℕ) := List (GQ × PTerm n)

/-- Total coefficient carried by a given label in an operator. -/
def coeffOf {n : ℕ} (A : SPOp n) (p : PTerm n) : GQ :=
  (A.map (fun t => if t.2 = p then t.1 else 0)).sum

/-- Distributive product of two operators (matrix product `A·B`): every term
pair is multiplied, coefficients multiplied and scaled by the phase of the
label product.  No merging is performed (qiskit's `compose` does not
simplify). -/
def spMul {n : ℕ} (A B : SPOp n) : SPOp n :=
  A.bind (fun a => B.map (fun b => (a.1 * b.1 * ipow (pmulG a.2 b.2), pmulP a.2 b.2)))

/-- qiskit's `A.compose(B)`: composition in circuit order (apply `A` first,
then `B`), i.e. the matrix product `B·A`. -/
def compose {n : ℕ} (A B : SPOp n) : SPOp n := spMul B A

/-- qiskit's `SparsePauliOp.adjoint`: labels are self-adjoint, so the
patterns are unchanged and every coefficient is conjugated. -/
def adjointOp {n : ℕ} (A : SPOp n) : SPOp n := A.map (fun t => (GQ.conj t.1, t.2))

/-- Scalar multiplication on an operator (qiskit `c * A`). -/
def smulOp {n : ℕ} (c : GQ) (A : SPOp n) : SPOp n := A.map (fun t => (c * t.1, t.2))

/-- qiskit's `SparsePauliOp.simplify`: merge all terms carrying the same
label into one (summing coefficients) and drop terms whose coefficient
vanishes (the floating-point tolerance of the source is modelled as exact
zero).  Merged labels are emitted in order of first occurrence. -/
def simplify {n : ℕ} : SPOp n → SPOp n
  | [] => []
  | (c, p) :: rest =>
    let c2 := c + coeffOf rest p
    let rest2 := rest.filter (fun t => decide (t.2 ≠ p))
    if c2 = 0 then simplify rest2 else (c2, p) :: simplify rest2
termination_by A => A.length
decreasing_by
  all_goals
    simp only [List.length_cons]
    have := List.length_filter_le (fun t => decide (t.2 ≠ p)) rest
    omega

theorem list_sum_map_add {α : Type} (l : List α) (f g : α → GQ) :
    (l.map (fun a => f a + g a)).sum = (l.map f).sum + (l.map g).sum := by
  induction l with
  | nil => simp
  | cons a t ih => simp [ih]; ring

theorem list_sum_map_zero {α : Type} (l : List α) :
    (l.map (fun _ => (0 : GQ))).sum = 0 := by
  induction l with
  | nil => rfl
  | cons a t ih => simp [ih]

theorem list_sum_map_mul_left {α : Type} (l : List α) (c : GQ) (f : α → GQ) :
    (l.map (fun a => c * f a)).sum = c * (l.map f).sum := by
  induction l with
  | nil => simp
  | cons a t ih => simp [ih]; ring

theorem list_sum_map_neg {α : Type} (l : List α) (f : α → GQ) :
    (l.map (fun a => -f a)).sum = -(l.map f).sum := by
  induction l with
  | nil => simp
  | cons a t ih => simp [ih]; ring

theorem conj_list_sum {α : Type} (l : List α) (f : α → GQ) :
    GQ.conj (l.map f).sum = (l.map (fun a => GQ.conj (f a))).sum := by
  induction l with
  | nil => simp
  | cons a t ih => simp [GQ.conj_add, ih]

/-- Fubini for iterated list sums. -/
theorem list_sum_swap {α β : Type} (A : List α) (B : List β) (f : α → β → GQ) :
    (A.map (fun a => (B.map (fun b => f a b)).sum)).sum =
      (B.map (fun b => (A.map (fun a => f a b)).sum)).sum := by
  induction A with
  | nil => simp [list_sum_map_zero]
  | cons a t ih =>
    simp only [List.map_cons, List.sum_cons, ih]
    rw [← list_sum_map_add]

theorem coeffOf_nil {n : ℕ} (p : PTerm n) : coeffOf ([] : SPOp n) p = 0 := rfl

theorem coeffOf_cons {n : ℕ} (c : GQ) (q : PTerm n) (A : SPOp n) (p : PTerm n) :
    coeffOf ((c, q) :: A) p = (if q = p then c else 0) + coeffOf A p := by
  simp [coeffOf]

theorem coeffOf_append {n : ℕ} (A B : SPOp n) (p : PTerm n) :
    coeffOf (A ++ B) p = coeffOf A p + coeffOf B p := by
  simp [coeffOf]

theorem coeffOf_bind {α : Type} {n : ℕ} (l : List α) (f : α → SPOp n) (p : PTerm n) :
    coeffOf (l.bind f) p = (l.map (fun a => coeffOf (f a) p)).sum := by
  induction l with
  | nil => rfl
  | cons a t ih => simp [List.cons_bind, coeffOf_append, ih]

theorem coeffOf_map {α : Type} {n : ℕ} (l : List α) (g : α → GQ) (h : α → PTerm n)
    (p : PTerm n) :
    coeffOf (l.map (fun a => (g a, h a))) p = (l.map (fun a => if h a = p then g a else 0)).sum := by
  simp [coeffOf, List.map_map]
  rfl

theorem coeffOf_smulOp {n : ℕ} (c : GQ) (A : SPOp n) (p : PTerm n) :
    coeffOf (smulOp c A) p = c * coeffOf A p := by
  induction A with
  | nil => simp [smulOp, coeffOf_nil]
  | cons a t ih =>
    rcases a with ⟨d, q⟩
    simp only [smulOp, List.map_cons] at ih ⊢
    rw [coeffOf_cons, coeffOf_cons, ih, mul_add]
    by_cases hq : q = p <;> simp [hq]

theorem coeffOf_adjointOp {n : ℕ} (A : SPOp n) (p : PTerm n) :
    coeffOf (adjointOp A) p = GQ.conj (coeffOf A p) := by
  induction A with
  | nil => simp [adjointOp, coeffOf_nil]
  | cons a t ih =>
    rcases a with ⟨d, q⟩
    simp only [adjointOp, List.map_cons] at ih ⊢
    rw [coeffOf_cons, coeffOf_cons, ih, GQ.conj_add]
    by_cases hq : q = p <;> simp [hq]

theorem coeffOf_spMul {n : ℕ} (A B : SPOp n) (p : PTerm n) :
    coeffOf (spMul A B) p =
      (A.map (fun a =>
        (B.map (fun b =>
          if pmulP a.2 b.2 = p then a.1 * b.1 * ipow (pmulG a.2 b.2) else 0)).sum)).sum := by
  unfold spMul
  rw [coeffOf_bind]
  refine congrArg List.sum (List.map_congr_left (fun a _ => ?_))
  exact coeffOf_map B _ _ p

theorem coeffOf_filter_ne {n : ℕ} (A : SPOp n) (p q : PTerm n) :
    coeffOf (A.filter (fun t => decide (t.2 ≠ p))) q =
      if q = p then 0 else coeffOf A q := by
  induction A with
  | nil => by_cases hq : q = p <;> simp [coeffOf_nil, hq]
  | cons a t ih =>
    rcases a with ⟨d, r⟩
    by_cases hr : r = p
    · subst hr
      have h1 : List.filter (fun t => decide (t.2 ≠ r)) ((d, r) :: t)
          = List.filter (fun t => decide (t.2 ≠ r)) t := by
        simp [List.filter_cons]
      rw [h1, ih]
      by_cases hq : q = r
      · simp [hq]
      · rw [if_neg hq, if_neg hq, coeffOf_cons, if_neg (Ne.symm hq), zero_add]
    · have h1 : List.filter (fun t => decide (t.2 ≠ p)) ((d, r) :: t)
          = (d, r) :: List.filter (fun t => decide (t.2 ≠ p)) t := by
        simp [List.filter_cons, hr]
      rw [h1, coeffOf_cons, coeffOf_cons, ih]
      by_cases hq : q = p
      · simp [hq, hr]
      · simp [hq]


theorem simplify_nil {n : ℕ} : simplify ([] : SPOp n) = [] := by
  simp [simplify]

/-- Simplification preserves the total coefficient of every label. -/
theorem coeffOf_simplify {n : ℕ} (A : SPOp n) (q : PTerm n) :
    coeffOf (simplify A) q = coeffOf A q := by
  induction A using simplify.induct with
  | case1 => rw [simplify_nil]
  | case2 c p rest c2 rest2 hz ih =>
    simp only [simplify, if_pos hz]
    rw [ih, coeffOf_filter_ne, coeffOf_cons]
    by_cases hq : q = p
    · subst hq
      rw [if_pos rfl, if_pos rfl]
      exact hz.symm
    · rw [if_neg hq, if_neg (fun h => hq h.symm), zero_add]
  | case3 c p rest c2 rest2 hz ih =>
    simp only [simplify, if_neg hz]
    rw [coeffOf_cons, ih, coeffOf_filter_ne, coeffOf_cons]
    by_cases hq : q = p
    · subst hq
      rw [if_pos rfl, if_pos rfl, if_pos rfl, add_zero]
    · rw [if_neg hq, if_neg (fun h => hq h.symm), if_neg (fun h => hq h.symm)]

/-- An operator all of whose label coefficients vanish simplifies to the
empty operator. -/
theorem simplify_eq_nil_of_zero {n : ℕ} (A : SPOp n) (h : ∀ q, coeffOf A q = 0) :
    simplify A = [] := by
  induction A using simplify.induct with
  | case1 => exact simplify_nil
  | case2 c p rest c2 rest2 hz ih =>
    simp only [simplify, if_pos hz]
    refine ih (fun q => ?_)
    rw [coeffOf_filter_ne]
    by_cases hq : q = p
    · rw [if_pos hq]
    · rw [if_neg hq]
      have := h q
      rw [coeffOf_cons, if_neg (fun h' => hq h'.symm), zero_add] at this
      exact this
  | case3 c p rest c2 rest2 hz ih =>
    exfalso
    apply hz
    have := h p
    rw [coeffOf_cons, if_pos rfl] at this
    exact this

/-- Simplification of an operator with a single surviving label. -/
theorem simplify_cons_single {n : ℕ} (c : GQ) (p : PTerm n) (rest : SPOp n)
    (hc : c + coeffOf rest p ≠ 0)
    (hz : ∀ q, q ≠ p → coeffOf ((c, p) :: rest) q = 0) :
    simplify ((c, p) :: rest) = [(c + coeffOf rest p, p)] := by
  simp only [simplify, if_neg hc]
  refine congrArg (List.cons _) (simplify_eq_nil_of_zero _ (fun q => ?_))
  rw [coeffOf_filter_ne]
  by_cases hq : q = p
  · rw [if_pos hq]
  · rw [if_neg hq]
    have := hz q hq
    rw [coeffOf_cons, if_neg (fun h' => hq h'.symm), zero_add] at this
    exact this

/-- Appending terms that contribute no coefficient anywhere does not change
the simplified operator. -/
theorem simplify_append_zero_aux {n : ℕ} :
    ∀ (N : ℕ) (A B : SPOp n), A.length ≤ N → (∀ q, coeffOf B q = 0) →
      simplify (A ++ B) = simplify A := by
  intro N
  induction N with
  | zero =>
    intro A B hA hB
    have hAnil : A = [] := List.length_eq_zero.mp (Nat.le_zero.mp hA)
    subst hAnil
    rw [List.nil_append, simplify_eq_nil_of_zero B hB, simplify_nil]
  | succ N ih =>
    intro A B hA hB
    match A with
    | [] =>
      rw [List.nil_append, simplify_eq_nil_of_zero B hB, simplify_nil]
    | (c, p) :: rest =>
      have hcoeff : coeffOf (rest ++ B) p = coeffOf rest p := by
        rw [coeffOf_append, hB, add_zero]
      have hBf : ∀ q, coeffOf (B.filter (fun t => decide (t.2 ≠ p))) q = 0 := by
        intro q
        rw [coeffOf_filter_ne]
        by_cases hq : q = p
        · rw [if_pos hq]
        · rw [if_neg hq, hB]
      have hlen : (rest.filter (fun t => decide (t.2 ≠ p))).length ≤ N := by
        have h1 := List.length_filter_le (fun t => decide (t.2 ≠ p)) rest
        have h2 : rest.length ≤ N := by
          simpa using Nat.succ_le_succ_iff.mp (by simpa using hA)
        omega
      have hrec := ih (rest.filter (fun t => decide (t.2 ≠ p)))
        (B.filter (fun t => decide (t.2 ≠ p))) hlen hBf
      show simplify ((c, p) :: (rest ++ B)) = simplify ((c, p) :: rest)
      simp only [simplify]
      rw [hcoeff, List.filter_append, hrec]

theorem simplify_append_zero {n : ℕ} (A B : SPOp n) (hB : ∀ q, coeffOf B q = 0) :
    simplify (A ++ B) = simplify A :=
  simplify_append_zero_aux A.length A B le_rfl hB

/-- Coefficient `0.5` of the source's Jordan-Wigner terms. -/
def halfC : GQ := ⟨1/2, 0⟩

/-- Coefficient `0.5j` of the source's Jordan-Wigner terms. -/
def halfiC : GQ := ⟨0, 1/2⟩

/-- Term `A` of the Jordan-Wigner image of orbital `i`: row `i` of
`np.tri(n, n, -1)` as `z` flags (set on qubits `k < i`) and row `i` of
`np.eye(n)` as `x` flags (set exactly on qubit `i`). -/
def Aterm (n : ℕ) (i : Fin n) : PTerm n :=
  ⟨fun k => decide (k < i), fun k => decide (k = i)⟩

/-- Term `B` of the Jordan-Wigner image of orbital `i`: row `i` of
`np.tri(n, n, 0)` as `z` flags (set on qubits `k ≤ i`) and row `i` of
`np.eye(n)` as `x` flags; both flags set on qubit `i` encodes `Y` there. -/
def Bterm (n : ℕ) (i : Fin n) : PTerm n :=
  ⟨fun k => decide (k ≤ i), fun k => decide (k = i)⟩

/-- The `SparsePauliOp` built for orbital `i` by the source:
`SparsePauliOp(PauliList.from_symplectic([z1, z2], [x, x]), [0.5, 0.5j])`. -/
def aop (n : ℕ) (i : Fin n) : SPOp n := [(halfC, Aterm n i), (halfiC, Bterm n i)]

/-- Source `annihilation_operators_with_jordan_wigner`: one two-term
operator per fermionic state, in order of the rows of the `np.tri`/`np.eye`
flag matrices. -/
def annihilation_operators_with_jordan_wigner (num_states : ℕ) : List (SPOp num_states) :=
  (List.finRange num_states).map (fun i => aop num_states i)

theorem conj_halfC : GQ.conj halfC = halfC := by
  ext <;> norm_num [halfC, GQ.conj]

theorem conj_halfiC : GQ.conj halfiC = -halfiC := by
  ext <;> norm_num [halfiC, GQ.conj]

theorem adjointOp_aop (n : ℕ) (i : Fin n) :
    adjointOp (aop n i) = [(GQ.conj halfC, Aterm n i), (GQ.conj halfiC, Bterm n i)] := rfl

/-- Expansion of the eight term products appearing in the anticommutator
`compose(a_i, a_j†) + compose(a_j†, a_i)`. -/
theorem jw_sum_expand (n : ℕ) (i j : Fin n) :
    compose (aop n i) (adjointOp (aop n j)) ++ compose (adjointOp (aop n j)) (aop n i) =
      [(GQ.conj halfC * halfC * ipow (pmulG (Aterm n j) (Aterm n i)),
          pmulP (Aterm n j) (Aterm n i)),
        (GQ.conj halfC * halfiC * ipow (pmulG (Aterm n j) (Bterm n i)),
          pmulP (Aterm n j) (Bterm n i)),
        (GQ.conj halfiC * halfC * ipow (pmulG (Bterm n j) (Aterm n i)),
          pmulP (Bterm n j) (Aterm n i)),
        (GQ.conj halfiC * halfiC * ipow (pmulG (Bterm n j) (Bterm n i)),
          pmulP (Bterm n j) (Bterm n i)),
        (halfC * GQ.conj halfC * ipow (pmulG (Aterm n i) (Aterm n j)),
          pmulP (Aterm n i) (Aterm n j)),
        (halfC * GQ.conj halfiC * ipow (pmulG (Aterm n i) (Bterm n j)),
          pmulP (Aterm n i) (Bterm n j)),
        (halfiC * GQ.conj halfC * ipow (pmulG (Bterm n i) (Aterm n j)),
          pmulP (Bterm n i) (Aterm n j)),
        (halfiC * GQ.conj halfiC * ipow (pmulG (Bterm n i) (Bterm n j)),
          pmulP (Bterm n i) (Bterm n j))] := by
  rfl

/-- Symplectic pairing of two labels whose `x` vectors are single-qubit
indicators. -/
theorem sympSum_eval {n : ℕ} (f g : Fin n → Bool) (i j : Fin n) :
    sympSum ⟨f, fun k => decide (k = i)⟩ ⟨g, fun k => decide (k = j)⟩ =
      b4 (g i) + b4 (f j) := by
  unfold sympSum
  rw [Finset.sum_add_distrib]
  congr 1
  · exact sum_b4_indicator i g
  · rw [Finset.sum_congr rfl (fun k _ => by rw [Bool.and_comm])]
    exact sum_b4_indicator j f

/-- Reversing a product whose symplectic pairing is odd flips the sign of
its phase factor. -/
theorem ipow_of_swap {n : ℕ} (p q : PTerm n) (h : 2 * sympSum p q = 2) :
    ipow (pmulG p q) = -ipow (pmulG q p) := by
  rw [pmulG_swap p q, h, ipow_add_two]

theorem sympSum_AA {n : ℕ} (i j : Fin n) :
    sympSum (Aterm n i) (Aterm n j) = b4 (decide (i < j)) + b4 (decide (j < i)) :=
  sympSum_eval (fun k => decide (k < i)) (fun k => decide (k < j)) i j

theorem sympSum_AB {n : ℕ} (i j : Fin n) :
    sympSum (Aterm n i) (Bterm n j) = b4 (decide (i ≤ j)) + b4 (decide (j < i)) :=
  sympSum_eval (fun k => decide (k < i)) (fun k => decide (k ≤ j)) i j

theorem sympSum_BA {n : ℕ} (i j : Fin n) :
    sympSum (Bterm n i) (Aterm n j) = b4 (decide (i < j)) + b4 (decide (j ≤ i)) :=
  sympSum_eval (fun k => decide (k ≤ i)) (fun k => decide (k < j)) i j

theorem sympSum_BB {n : ℕ} (i j : Fin n) :
    sympSum (Bterm n i) (Bterm n j) = b4 (decide (i ≤ j)) + b4 (decide (j ≤ i)) :=
  sympSum_eval (fun k => decide (k ≤ i)) (fun k => decide (k ≤ j)) i j

theorem two_sympSum_AA {n : ℕ} {i j : Fin n} (h : i ≠ j) :
    2 * sympSum (Aterm n i) (Aterm n j) = 2 := by
  rw [sympSum_AA]
  rcases lt_or_gt_of_ne h with hlt | hgt
  · rw [decide_eq_true hlt, decide_eq_false (asymm hlt)]; decide
  · rw [decide_eq_false (asymm hgt), decide_eq_true hgt]; decide

theorem two_sympSum_AB {n : ℕ} (i j : Fin n) :
    2 * sympSum (Aterm n i) (Bterm n j) = 2 := by
  rw [sympSum_AB]
  by_cases hle : i ≤ j
  · rw [decide_eq_true hle, decide_eq_false (not_lt.mpr hle)]; decide
  · rw [decide_eq_false hle, decide_eq_true (not_le.mp hle)]; decide

theorem two_sympSum_BA {n : ℕ} (i j : Fin n) :
    2 * sympSum (Bterm n i) (Aterm n j) = 2 := by
  rw [sympSum_BA]
  by_cases hlt : i < j
  · rw [decide_eq_true hlt, decide_eq_false (not_le.mpr hlt)]; decide
  · rw [decide_eq_false hlt, decide_eq_true (not_lt.mp hlt)]; decide

theorem two_sympSum_BB {n : ℕ} {i j : Fin n} (h : i ≠ j) :
    2 * sympSum (Bterm n i) (Bterm n j) = 2 := by
  rw [sympSum_BB]
  rcases lt_or_gt_of_ne h with hlt | hgt
  · rw [decide_eq_true (le_of_lt hlt), decide_eq_false (not_le.mpr hlt)]; decide
  · rw [decide_eq_false (not_le.mpr hgt), decide_eq_true (le_of_lt hgt)]; decide

theorem pmulP_AB_ne_id (n : ℕ) (i : Fin n) :
    pmulP (Aterm n i) (Bterm n i) ≠ idP n := by
  intro h
  have h2 := congrArg (fun t => PTerm.z t i) h
  simp [pmulP, Aterm, Bterm, idP] at h2


/-- Fermionic anticommutation of the Jordan-Wigner operators at the level
of single orbital pairs: the simplified anticommutator of `a_i` and the
adjoint of `a_j` is `δ_ij` times the identity operator. -/
theorem jw_anticommutator (n : ℕ) (i j : Fin n) :
    simplify (compose (aop n i) (adjointOp (aop n j)) ++
        compose (adjointOp (aop n j)) (aop n i)) =
      if i = j then [(1, idP n)] else [] := by
  rw [jw_sum_expand]
  by_cases hij : i = j
  · subst hij
    rw [if_pos rfl]
    rw [pmulG_self (Aterm n i), pmulG_self (Bterm n i), ipow_zero]
    simp only [mul_one]
    rw [pmulP_self (Aterm n i), pmulP_self (Bterm n i), pmulP_comm (Bterm n i) (Aterm n i)]
    have hne := pmulP_AB_ne_id n i
    have htot : GQ.conj halfC * halfC +
        coeffOf [(GQ.conj halfC * halfiC * ipow (pmulG (Aterm n i) (Bterm n i)),
            pmulP (Aterm n i) (Bterm n i)),
          (GQ.conj halfiC * halfC * ipow (pmulG (Bterm n i) (Aterm n i)),
            pmulP (Aterm n i) (Bterm n i)),
          (GQ.conj halfiC * halfiC, idP n),
          (halfC * GQ.conj halfC, idP n),
          (halfC * GQ.conj halfiC * ipow (pmulG (Aterm n i) (Bterm n i)),
            pmulP (Aterm n i) (Bterm n i)),
          (halfiC * GQ.conj halfC * ipow (pmulG (Bterm n i) (Aterm n i)),
            pmulP (Aterm n i) (Bterm n i)),
          (halfiC * GQ.conj halfiC, idP n)] (idP n) = 1 := by
      simp only [coeffOf, List.map_cons, List.map_nil, List.sum_cons, List.sum_nil]
      rw [if_neg hne, if_neg hne, if_neg hne, if_neg hne]
      simp only [if_true]
      rw [conj_halfC, conj_halfiC]
      rw [GQ.eq_iff]
      constructor <;> norm_num [halfC, halfiC]
    refine (simplify_cons_single _ _ _ ?_ ?_).trans ?_
    · rw [htot]; exact one_ne_zero
    · intro q hq
      simp only [coeffOf, List.map_cons, List.map_nil, List.sum_cons, List.sum_nil]
      by_cases hzq : pmulP (Aterm n i) (Bterm n i) = q
      · rw [if_pos hzq, if_pos hzq, if_pos hzq, if_pos hzq,
          if_neg (fun h => hq h.symm), if_neg (fun h => hq h.symm),
          if_neg (fun h => hq h.symm), if_neg (fun h => hq h.symm),
          conj_halfC, conj_halfiC]
        ring
      · rw [if_neg hzq, if_neg hzq, if_neg hzq, if_neg hzq,
          if_neg (fun h => hq h.symm), if_neg (fun h => hq h.symm),
          if_neg (fun h => hq h.symm), if_neg (fun h => hq h.symm)]
        ring
    · rw [htot]
  · rw [if_neg hij]
    apply simplify_eq_nil_of_zero
    intro q
    rw [pmulP_comm (Aterm n i) (Aterm n j), pmulP_comm (Aterm n i) (Bterm n j),
      pmulP_comm (Bterm n i) (Aterm n j), pmulP_comm (Bterm n i) (Bterm n j)]
    rw [ipow_of_swap (Aterm n i) (Aterm n j) (two_sympSum_AA hij),
      ipow_of_swap (Aterm n i) (Bterm n j) (two_sympSum_AB i j),
      ipow_of_swap (Bterm n i) (Aterm n j) (two_sympSum_BA i j),
      ipow_of_swap (Bterm n i) (Bterm n j) (two_sympSum_BB hij)]
    simp only [coeffOf, List.map_cons, List.map_nil, List.sum_cons, List.sum_nil]
    by_cases h1 : pmulP (Aterm n j) (Aterm n i) = q <;>
      by_cases h2 : pmulP (Aterm n j) (Bterm n i) = q <;>
        by_cases h3 : pmulP (Bterm n j) (Aterm n i) = q <;>
          by_cases h4 : pmulP (Bterm n j) (Bterm n i) = q <;>
            simp [h1, h2, h3, h4] <;>
            ring

theorem annJW_length (n : ℕ) :
    (annihilation_operators_with_jordan_wigner n).length = n := by
  simp [annihilation_operators_with_jordan_wigner]

theorem annJW_getD (n : ℕ) (i : Fin n) :
    (annihilation_operators_with_jordan_wigner n).getD i.val [] = aop n i := by
  unfold annihilation_operators_with_jordan_wigner
  rw [List.getD_eq_getElem?_getD, List.getElem?_map]
  rw [List.getElem?_eq_getElem (by simpa using i.isLt)]
  simp

/-- Claim C1: the annihilation operators returned by
`annihilation_operators_with_jordan_wigner`, with the creation operators
obtained as their adjoints, satisfy the canonical fermionic anticommutation
relation: for all orbitals `i, j`, the sum
`compose(a_i, a_j†) + compose(a_j†, a_i)` simplifies to `δ_ij` times the
identity operator (the identity for `i = j`, the zero operator otherwise). -/
theorem C1_jw_anticommutation (n : ℕ) (i j : Fin n) :
    simplify
      (compose ((annihilation_operators_with_jordan_wigner n).getD i.val [])
          (adjointOp ((annihilation_operators_with_jordan_wigner n).getD j.val [])) ++
        compose (adjointOp ((annihilation_operators_with_jordan_wigner n).getD j.val []))
          ((annihilation_operators_with_jordan_wigner n).getD i.val [])) =
      if i = j then [(1, idP n)] else [] := by
  rw [annJW_getD, annJW_getD]
  exact jw_anticommutator n i j

theorem foldl_snd_append {α γ δ : Type} (l : List α) (g : α → List γ)
    (acc : δ × List γ) :
    l.foldl (fun acc x => (acc.1, acc.2 ++ g x)) acc = (acc.1, acc.2 ++ l.bind g) := by
  induction l generalizing acc with
  | nil => simp
  | cons a t ih =>
    rw [List.foldl_cons, ih]
    simp [List.cons_bind, List.append_assoc]

theorem foldl_pair_append {α γ : Type} (l : List α) (f g : α → List γ)
    (acc : List γ × List γ) :
    l.foldl (fun acc x => (acc.1 ++ f x, acc.2 ++ g x)) acc =
      (acc.1 ++ l.bind f, acc.2 ++ l.bind g) := by
  induction l generalizing acc with
  | nil => simp
  | cons a t ih =>
    rw [List.foldl_cons, ih]
    simp [List.cons_bind, List.append_assoc]

/-- The two accumulator variables of source `build_qubit_hamiltonian`:
`one_body_sum` and `two_body_sum`, built by the nested
`for i / for j / for k / for l` loops (`+=` is modelled as appending the
added operator's terms, `0` as the empty operator). -/
def oneTwoSums {n : ℕ} (one_body : ℕ → ℕ → GQ) (two_body : ℕ → ℕ → ℕ → ℕ → GQ)
    (annihilation_operators creation_operators : List (SPOp n)) : SPOp n × SPOp n :=
  (List.range annihilation_operators.length).foldl (fun acc i =>
    (List.range annihilation_operators.length).foldl (fun acc j =>
      let acc1 := (acc.1 ++ smulOp (one_body i j)
        (compose (creation_operators.getD i []) (annihilation_operators.getD j [])), acc.2)
      let a_ij := compose (creation_operators.getD i []) (creation_operators.getD j [])
      (List.range annihilation_operators.length).foldl (fun acc k =>
        (List.range annihilation_operators.length).foldl (fun acc l =>
          let a_kl := compose (annihilation_operators.getD k [])
            (annihilation_operators.getD l [])
          (acc.1, acc.2 ++ smulOp (two_body i j k l) (compose a_ij a_kl))) acc) acc1) acc)
    ([], [])

/-- Source `build_qubit_hamiltonian`: accumulate the one-body and two-body
sums, form `one_body_sum + 0.5 * two_body_sum` and simplify. -/
def build_qubit_hamiltonian {n : ℕ} (one_body : ℕ → ℕ → GQ)
    (two_body : ℕ → ℕ → ℕ → ℕ → GQ)
    (annihilation_operators creation_operators : List (SPOp n)) : SPOp n :=
  let sums := oneTwoSums one_body two_body annihilation_operators creation_operators
  simplify (sums.1 ++ smulOp (GQ.ofRat (1/2)) sums.2)

/-- The one-body double sum `Σ_i Σ_j one_body[i,j] ·
cre[i].compose(ann[j])` written as a flat sum of operators. -/
def one_body_formula {n : ℕ} (one_body : ℕ → ℕ → GQ)
    (annihilation_operators creation_operators : List (SPOp n)) : SPOp n :=
  (List.range annihilation_operators.length).bind (fun i =>
    (List.range annihilation_operators.length).bind (fun j =>
      smulOp (one_body i j)
        (compose (creation_operators.getD i []) (annihilation_operators.getD j []))))

/-- The two-body quadruple sum `Σ_i Σ_j Σ_k Σ_l two_body[i,j,k,l] ·
(cre[i].compose(cre[j])).compose(ann[k].compose(ann[l]))` as a flat sum. -/
def two_body_formula {n : ℕ} (two_body : ℕ → ℕ → ℕ → ℕ → GQ)
    (annihilation_operators creation_operators : List (SPOp n)) : SPOp n :=
  (List.range annihilation_operators.length).bind (fun i =>
    (List.range annihilation_operators.length).bind (fun j =>
      (List.range annihilation_operators.length).bind (fun k =>
        (List.range annihilation_operators.length).bind (fun l =>
          smulOp (two_body i j k l)
            (compose (compose (creation_operators.getD i []) (creation_operators.getD j []))
              (compose (annihilation_operators.getD k [])
                (annihilation_operators.getD l [])))))))

theorem oneTwoSums_eq {n : ℕ} (one_body : ℕ → ℕ → GQ)
    (two_body : ℕ → ℕ → ℕ → ℕ → GQ) (ann cre : List (SPOp n)) :
    oneTwoSums one_body two_body ann cre =
      (one_body_formula one_body ann cre, two_body_formula two_body ann cre) := by
  unfold oneTwoSums one_body_formula two_body_formula
  simp only [foldl_snd_append]
  simp only [foldl_pair_append]
  simp

/-- Claim C3: each annihilation operator is a two-term sum with
coefficients `0.5` and `0.5i`, term `A` carrying `Z` flags on `[0, i)` and
the `X` flag exactly on qubit `i`, term `B` the same plus both flags on
qubit `i`; its adjoint has coefficients `0.5` and `-0.5i` on unchanged
patterns; and the returned list has one operator per orbital (in
particular 4 operators for 4 orbitals). -/
theorem C3_jw_structure (n : ℕ) (i : Fin n) :
    (annihilation_operators_with_jordan_wigner n).length = n ∧
    (annihilation_operators_with_jordan_wigner 4).length = 4 ∧
    (annihilation_operators_with_jordan_wigner n).getD i.val [] =
      [((⟨1/2, 0⟩ : GQ), ⟨fun k => decide (k < i), fun k => decide (k = i)⟩),
        ((⟨0, 1/2⟩ : GQ), ⟨fun k => decide (k ≤ i), fun k => decide (k = i)⟩)] ∧
    adjointOp ((annihilation_operators_with_jordan_wigner n).getD i.val []) =
      [((⟨1/2, -0⟩ : GQ), ⟨fun k => decide (k < i), fun k => decide (k = i)⟩),
        ((⟨0, -(1/2)⟩ : GQ), ⟨fun k => decide (k ≤ i), fun k => decide (k = i)⟩)] := by
  refine ⟨annJW_length n, annJW_length 4, ?_, ?_⟩
  · rw [annJW_getD]
    rfl
  · rw [annJW_getD, adjointOp_aop]
    rfl

/-- Source identity: the pair of accumulators assembled by the nested
loops equals the flat double and quadruple sums, so
`build_qubit_hamiltonian` is the simplification of
`one-body sum + 0.5 · two-body sum`. -/
theorem build_eq_formula {n : ℕ} (one_body : ℕ → ℕ → GQ)
    (two_body : ℕ → ℕ → ℕ → ℕ → GQ) (ann cre : List (SPOp n)) :
    build_qubit_hamiltonian one_body two_body ann cre =
      simplify (one_body_formula one_body ann cre ++
        smulOp (GQ.ofRat (1/2)) (two_body_formula two_body ann cre)) := by
  unfold build_qubit_hamiltonian
  rw [oneTwoSums_eq]

/-- Claim C2 (amended): `build_qubit_hamiltonian` returns the
simplification of
`Σ_i Σ_j one_body[i,j] · compose(creators[i], annihilators[j])` plus
`0.5 · Σ_i Σ_j Σ_k Σ_l two_body[i,j,k,l] ·
compose(compose(creators[i], creators[j]), compose(annihilators[k],
annihilators[l]))`, where `compose` is qiskit's composition convention:
the first operand is applied first, i.e. the creators enter as the RIGHT
factor of the underlying matrix product. -/
theorem C2_build_qubit_hamiltonian (n : ℕ) (one_body : ℕ → ℕ → GQ)
    (two_body : ℕ → ℕ → ℕ → ℕ → GQ) (ann cre : List (SPOp n)) :
    build_qubit_hamiltonian one_body two_body ann cre =
      simplify (one_body_formula one_body ann cre ++
        smulOp (GQ.ofRat (1/2)) (two_body_formula two_body ann cre)) :=
  build_eq_formula one_body two_body ann cre

/-- Modelled from the claim's words (C2): "compose denotes the operator
product in the stated left-to-right order (creators applied as the left
factor of the product)" — the product with the first operand as the left
matrix factor, which is qiskit's `front` composition, not the `compose`
the source calls. -/
def composeLR {n : ℕ} (A B : SPOp n) : SPOp n := spMul A B

/-- Modelled from the claim's words (C2): the one-body double sum with the
left-to-right product. -/
def one_body_formula_LR {n : ℕ} (one_body : ℕ → ℕ → GQ)
    (annihilation_operators creation_operators : List (SPOp n)) : SPOp n :=
  (List.range annihilation_operators.length).bind (fun i =>
    (List.range annihilation_operators.length).bind (fun j =>
      smulOp (one_body i j)
        (composeLR (creation_operators.getD i []) (annihilation_operators.getD j []))))

/-- Modelled from the claim's words (C2): the two-body quadruple sum with
the left-to-right product. -/
def two_body_formula_LR {n : ℕ} (two_body : ℕ → ℕ → ℕ → ℕ → GQ)
    (annihilation_operators creation_operators : List (SPOp n)) : SPOp n :=
  (List.range annihilation_operators.length).bind (fun i =>
    (List.range annihilation_operators.length).bind (fun j =>
      (List.range annihilation_operators.length).bind (fun k =>
        (List.range annihilation_operators.length).bind (fun l =>
          smulOp (two_body i j k l)
            (composeLR
              (composeLR (creation_operators.getD i []) (creation_operators.getD j []))
              (composeLR (annihilation_operators.getD k [])
                (annihilation_operators.getD l [])))))))

theorem coeffOf_two_body_formula_zero {n : ℕ} (ann cre : List (SPOp n)) (q : PTerm n) :
    coeffOf (two_body_formula (fun _ _ _ _ => (0 : GQ)) ann cre) q = 0 := by
  simp [two_body_formula, coeffOf_bind, coeffOf_smulOp, list_sum_map_zero]

theorem coeffOf_two_body_formula_LR_zero {n : ℕ} (ann cre : List (SPOp n)) (q : PTerm n) :
    coeffOf (two_body_formula_LR (fun _ _ _ _ => (0 : GQ)) ann cre) q = 0 := by
  simp [two_body_formula_LR, coeffOf_bind, coeffOf_smulOp, list_sum_map_zero]

/-- Claim C6: with an all-zero two-body tensor, `build_qubit_hamiltonian`
returns exactly the simplification of the pure one-body double sum. -/
theorem C6_zero_two_body (n : ℕ) (one_body : ℕ → ℕ → GQ)
    (ann cre : List (SPOp n)) :
    build_qubit_hamiltonian one_body (fun _ _ _ _ => 0) ann cre =
      simplify (one_body_formula one_body ann cre) := by
  rw [build_eq_formula]
  apply simplify_append_zero
  intro q
  rw [coeffOf_smulOp, coeffOf_two_body_formula_zero, mul_zero]

/-- The single-qubit `Z` label, the pattern on which the two composition
orders of `a†` and `a` disagree. -/
def Zp1 : PTerm 1 := ⟨fun _ => true, fun _ => false⟩

/-- Extensionality for one-qubit patterns. -/
theorem pterm1_ext {p q : PTerm 1} (hz : p.z 0 = q.z 0) (hx : p.x 0 = q.x 0) : p = q := by
  cases p
  cases q
  simp only [PTerm.mk.injEq]
  constructor <;> funext k <;> rw [Fin.fin_one_eq_zero k]
  · exact hz
  · exact hx

theorem spMul_aop_adj_expand :
    spMul (aop 1 0) (adjointOp (aop 1 0)) =
      [(halfC * GQ.conj halfC * ipow (pmulG (Aterm 1 0) (Aterm 1 0)),
          pmulP (Aterm 1 0) (Aterm 1 0)),
        (halfC * GQ.conj halfiC * ipow (pmulG (Aterm 1 0) (Bterm 1 0)),
          pmulP (Aterm 1 0) (Bterm 1 0)),
        (halfiC * GQ.conj halfC * ipow (pmulG (Bterm 1 0) (Aterm 1 0)),
          pmulP (Bterm 1 0) (Aterm 1 0)),
        (halfiC * GQ.conj halfiC * ipow (pmulG (Bterm 1 0) (Bterm 1 0)),
          pmulP (Bterm 1 0) (Bterm 1 0))] := rfl

theorem spMul_adj_aop_expand :
    spMul (adjointOp (aop 1 0)) (aop 1 0) =
      [(GQ.conj halfC * halfC * ipow (pmulG (Aterm 1 0) (Aterm 1 0)),
          pmulP (Aterm 1 0) (Aterm 1 0)),
        (GQ.conj halfC * halfiC * ipow (pmulG (Aterm 1 0) (Bterm 1 0)),
          pmulP (Aterm 1 0) (Bterm 1 0)),
        (GQ.conj halfiC * halfC * ipow (pmulG (Bterm 1 0) (Aterm 1 0)),
          pmulP (Bterm 1 0) (Aterm 1 0)),
        (GQ.conj halfiC * halfiC * ipow (pmulG (Bterm 1 0) (Bterm 1 0)),
          pmulP (Bterm 1 0) (Bterm 1 0))] := rfl

theorem coeff_aop_adj_at_Z :
    coeffOf (spMul (aop 1 0) (adjointOp (aop 1 0))) Zp1 = halfC := by
  rw [spMul_aop_adj_expand]
  simp only [coeffOf, List.map_cons, List.map_nil, List.sum_cons, List.sum_nil]
  rw [if_neg (by decide : ¬pmulP (Aterm 1 0) (Aterm 1 0) = Zp1),
    if_pos (pterm1_ext rfl rfl : pmulP (Aterm 1 0) (Bterm 1 0) = Zp1),
    if_pos (pterm1_ext rfl rfl : pmulP (Bterm 1 0) (Aterm 1 0) = Zp1),
    if_neg (by decide : ¬pmulP (Bterm 1 0) (Bterm 1 0) = Zp1),
    (by decide : pmulG (Aterm 1 0) (Bterm 1 0) = 1),
    (by decide : pmulG (Bterm 1 0) (Aterm 1 0) = 3),
    ipow_one, ipow_three, conj_halfC, conj_halfiC]
  rw [GQ.eq_iff]
  constructor <;> norm_num [halfC, halfiC, GQ.iu]

theorem coeff_adj_aop_at_Z :
    coeffOf (spMul (adjointOp (aop 1 0)) (aop 1 0)) Zp1 = -halfC := by
  rw [spMul_adj_aop_expand]
  simp only [coeffOf, List.map_cons, List.map_nil, List.sum_cons, List.sum_nil]
  rw [if_neg (by decide : ¬pmulP (Aterm 1 0) (Aterm 1 0) = Zp1),
    if_pos (pterm1_ext rfl rfl : pmulP (Aterm 1 0) (Bterm 1 0) = Zp1),
    if_pos (pterm1_ext rfl rfl : pmulP (Bterm 1 0) (Aterm 1 0) = Zp1),
    if_neg (by decide : ¬pmulP (Bterm 1 0) (Bterm 1 0) = Zp1),
    (by decide : pmulG (Aterm 1 0) (Bterm 1 0) = 1),
    (by decide : pmulG (Bterm 1 0) (Aterm 1 0) = 3),
    ipow_one, ipow_three, conj_halfC, conj_halfiC]
  rw [GQ.eq_iff]
  constructor <;> norm_num [halfC, halfiC, GQ.iu]

/-- Counterexample for claim C2 as stated: with one orbital,
`one_body = [[1]]` and a zero two-body tensor, the Hamiltonian the source
builds differs from the simplification of the claim's sums read with the
left-to-right product (creators as left factor).  The source's qiskit
`compose` multiplies in the opposite order, so the two operators disagree
on the `Z` pattern (`+1/2` versus `-1/2`). -/
theorem C2_counterexample :
    build_qubit_hamiltonian (fun _ _ => 1) (fun _ _ _ _ => 0)
        (annihilation_operators_with_jordan_wigner 1)
        ((annihilation_operators_with_jordan_wigner 1).map adjointOp) ≠
      simplify (one_body_formula_LR (fun _ _ => 1)
          (annihilation_operators_with_jordan_wigner 1)
          ((annihilation_operators_with_jordan_wigner 1).map adjointOp) ++
        smulOp (GQ.ofRat (1/2)) (two_body_formula_LR (fun _ _ _ _ => 0)
          (annihilation_operators_with_jordan_wigner 1)
          ((annihilation_operators_with_jordan_wigner 1).map adjointOp))) := by
  intro h
  have h2 := congrArg (fun A => coeffOf A Zp1) h
  simp only at h2
  rw [build_eq_formula, coeffOf_simplify, coeffOf_simplify, coeffOf_append, coeffOf_append,
    coeffOf_smulOp, coeffOf_smulOp, coeffOf_two_body_formula_zero,
    coeffOf_two_body_formula_LR_zero] at h2
  simp only [mul_zero, add_zero] at h2
  have e1 : one_body_formula (fun _ _ => (1 : GQ))
      (annihilation_operators_with_jordan_wigner 1)
      ((annihilation_operators_with_jordan_wigner 1).map adjointOp) =
      smulOp 1 (spMul (aop 1 0) (adjointOp (aop 1 0))) := rfl
  have e2 : one_body_formula_LR (fun _ _ => (1 : GQ))
      (annihilation_operators_with_jordan_wigner 1)
      ((annihilation_operators_with_jordan_wigner 1).map adjointOp) =
      smulOp 1 (spMul (adjointOp (aop 1 0)) (aop 1 0)) := rfl
  rw [e1, e2, coeffOf_smulOp, coeffOf_smulOp, one_mul, one_mul,
    coeff_aop_adj_at_Z, coeff_adj_aop_at_Z] at h2
  have h3 := congrArg GQ.re h2
  norm_num [halfC] at h3

theorem adjointOp_adjointOp {n : ℕ} (A : SPOp n) : adjointOp (adjointOp A) = A := by
  unfold adjointOp
  rw [List.map_map]
  refine Eq.trans (List.map_congr_left (fun t _ => ?_)) (List.map_id A)
  simp [Function.comp, GQ.conj_conj]

theorem getD_map_adjointOp {n : ℕ} (l : List (SPOp n)) (i : ℕ) :
    (l.map adjointOp).getD i [] = adjointOp (l.getD i []) := by
  rw [List.getD_eq_getElem?_getD, List.getD_eq_getElem?_getD, List.getElem?_map]
  cases h : l[i]? with
  | none => rfl
  | some x => rfl

/-- Taking the adjoint of a product reverses the factors at the level of
label coefficients: `(A·B)† = B†·A†`. -/
theorem conj_coeffOf_spMul {n : ℕ} (A B : SPOp n) (p : PTerm n) :
    GQ.conj (coeffOf (spMul A B) p) = coeffOf (spMul (adjointOp B) (adjointOp A)) p := by
  rw [coeffOf_spMul, coeffOf_spMul, conj_list_sum]
  simp only [adjointOp, List.map_map, Function.comp]
  have step1 : (A.map (fun a => GQ.conj ((B.map (fun b =>
        if pmulP a.2 b.2 = p then a.1 * b.1 * ipow (pmulG a.2 b.2) else 0)).sum))).sum
      = (A.map (fun a => (B.map (fun b =>
        if pmulP a.2 b.2 = p then GQ.conj a.1 * GQ.conj b.1 * ipow (pmulG b.2 a.2)
        else 0)).sum)).sum := by
    refine congrArg List.sum (List.map_congr_left (fun a _ => ?_))
    rw [conj_list_sum]
    refine congrArg List.sum (List.map_congr_left (fun b _ => ?_))
    by_cases hc : pmulP a.2 b.2 = p
    · rw [if_pos hc, if_pos hc, GQ.conj_mul, GQ.conj_mul, conj_ipow,
        ← pmulG_antisymm a.2 b.2]
    · rw [if_neg hc, if_neg hc, GQ.conj_zero]
  rw [step1, list_sum_swap]
  refine congrArg List.sum (List.map_congr_left (fun b _ => ?_))
  refine congrArg List.sum (List.map_congr_left (fun a _ => ?_))
  dsimp only [Function.comp_apply]
  rw [pmulP_comm b.2 a.2]
  by_cases hc : pmulP a.2 b.2 = p
  · rw [if_pos hc, if_pos hc]
    ring
  · rw [if_neg hc, if_neg hc]

theorem coeffOf_one_body_formula {n : ℕ} (one_body : ℕ → ℕ → GQ)
    (ann cre : List (SPOp n)) (p : PTerm n) :
    coeffOf (one_body_formula one_body ann cre) p =
      ((List.range ann.length).map (fun i => ((List.range ann.length).map (fun j =>
        one_body i j * coeffOf (compose (cre.getD i []) (ann.getD j [])) p)).sum)).sum := by
  simp [one_body_formula, coeffOf_bind, coeffOf_smulOp]

/-- Claim C5 (amended to real symmetric tensors): the Hamiltonian built
from a real-valued symmetric one-body tensor and an all-zero two-body
tensor, over the Jordan-Wigner annihilators with their adjoints as
creators, is Hermitian: after simplification every label's coefficient is
individually real (equal to its own conjugate). -/
theorem C5_hermitian (n : ℕ) (one_body : ℕ → ℕ → GQ)
    (hsym : ∀ i j, one_body i j = one_body j i)
    (hreal : ∀ i j, GQ.conj (one_body i j) = one_body i j)
    (p : PTerm n) :
    GQ.conj (coeffOf (build_qubit_hamiltonian one_body (fun _ _ _ _ => 0)
        (annihilation_operators_with_jordan_wigner n)
        ((annihilation_operators_with_jordan_wigner n).map adjointOp)) p) =
      coeffOf (build_qubit_hamiltonian one_body (fun _ _ _ _ => 0)
        (annihilation_operators_with_jordan_wigner n)
        ((annihilation_operators_with_jordan_wigner n).map adjointOp)) p := by
  set ann := annihilation_operators_with_jordan_wigner n with hann
  rw [build_eq_formula, coeffOf_simplify, coeffOf_append, coeffOf_smulOp,
    coeffOf_two_body_formula_zero, mul_zero, add_zero, coeffOf_one_body_formula]
  rw [conj_list_sum]
  have hF : ∀ i j, GQ.conj (one_body i j *
      coeffOf (compose ((ann.map adjointOp).getD i []) (ann.getD j [])) p)
      = one_body i j *
        coeffOf (compose ((ann.map adjointOp).getD j []) (ann.getD i [])) p := by
    intro i j
    rw [GQ.conj_mul, hreal]
    congr 1
    show GQ.conj (coeffOf (spMul (ann.getD j []) ((ann.map adjointOp).getD i [])) p) = _
    rw [getD_map_adjointOp, getD_map_adjointOp, conj_coeffOf_spMul, adjointOp_adjointOp]
    rfl
  have step2 : ∀ i : ℕ, GQ.conj ((List.map (fun j => one_body i j *
      coeffOf (compose ((List.map adjointOp ann).getD i []) (ann.getD j [])) p)
        (List.range ann.length)).sum)
      = (List.map (fun j => one_body i j *
          coeffOf (compose ((List.map adjointOp ann).getD j []) (ann.getD i [])) p)
        (List.range ann.length)).sum := by
    intro i
    rw [conj_list_sum]
    exact congrArg List.sum (List.map_congr_left (fun j _ => hF i j))
  simp only [step2]
  rw [list_sum_swap]
  refine congrArg List.sum (List.map_congr_left (fun j _ => ?_))
  refine congrArg List.sum (List.map_congr_left (fun i _ => ?_))
  rw [hsym]

/-- Witness for claim C5 at a concrete instance (`n = 1`,
`one_body = [[1]]`). -/
theorem C5_hermitian_witness :
    GQ.conj (coeffOf (build_qubit_hamiltonian (fun _ _ => (1 : GQ)) (fun _ _ _ _ => 0)
        (annihilation_operators_with_jordan_wigner 1)
        ((annihilation_operators_with_jordan_wigner 1).map adjointOp)) (idP 1)) =
      coeffOf (build_qubit_hamiltonian (fun _ _ => (1 : GQ)) (fun _ _ _ _ => 0)
        (annihilation_operators_with_jordan_wigner 1)
        ((annihilation_operators_with_jordan_wigner 1).map adjointOp)) (idP 1) :=
  C5_hermitian 1 (fun _ _ => 1) (fun _ _ => rfl) (fun _ _ => GQ.conj_one) (idP 1)

/-- Source inner `cost_function` of `minimize_expectation_value`: estimate
the expectation value of every Pauli pattern of the observable on the
bound circuit (`po.estimate_expectation_values` is an external collaborator
passed in as `estimate`; per its interface it returns one real estimate per
pattern), then return `np.dot(observable.coeffs, estimated_values)` — the
plain complex dot product. -/
def cost_function {n : ℕ} {Circuit Backend Opts : Type}
    (estimate : List (PTerm n) → Circuit × List ℚ → Backend → Opts → List ℚ)
    (observable : SPOp n) (ansatz : Circuit) (backend : Backend) (execute_opts : Opts)
    (params : List ℚ) : GQ :=
  List.sum (List.zipWith (fun c v => c * GQ.ofRat v)
    (observable.map (fun t => t.1))
    (estimate (observable.map (fun t => t.2)) (ansatz, params) backend execute_opts))

/-- Source `minimize_expectation_value`: hand the cost function and the
starting parameters to the supplied minimizer, with the method fixed to
the string "COBYLA". -/
def minimize_expectation_value {n : ℕ} {Circuit Backend Opts R : Type}
    (estimate : List (PTerm n) → Circuit × List ℚ → Backend → Opts → List ℚ)
    (observable : SPOp n) (ansatz : Circuit) (starting_params : List ℚ)
    (backend : Backend)
    (minimizer : (List ℚ → GQ) → List ℚ → String → R)
    (execute_opts : Opts) : R :=
  minimizer (cost_function estimate observable ansatz backend execute_opts)
    starting_params "COBYLA"

theorem zip_mul_sum (as : List GQ) (bs : List ℚ) (h : bs.length = as.length) :
    (List.zipWith (fun c v => c * GQ.ofRat v) as bs).sum =
      ∑ k ∈ Finset.range as.length, as.getD k 0 * GQ.ofRat (bs.getD k 0) := by
  induction as generalizing bs with
  | nil => simp
  | cons a t ih =>
    cases bs with
    | nil => simp at h
    | cons b bs2 =>
      simp only [List.zipWith_cons_cons, List.sum_cons, List.length_cons]
      rw [Finset.sum_range_succ']
      simp only [List.getD_cons_succ, List.getD_cons_zero]
      rw [ih bs2 (by simpa using h)]
      rw [add_comm]

/-- Claim C4 (amended): for every parameter vector the cost function
computes the dot product Σ coefficient·estimate over the observable's
terms and returns that (possibly complex) sum itself — the real part is
not extracted. -/
theorem C4_cost_function (n : ℕ) (Circuit Backend Opts : Type)
    (estimate : List (PTerm n) → Circuit × List ℚ → Backend → Opts → List ℚ)
    (observable : SPOp n) (ansatz : Circuit) (backend : Backend)
    (execute_opts : Opts) (params : List ℚ)
    (hlen : (estimate (observable.map (fun t => t.2)) (ansatz, params) backend
      execute_opts).length = observable.length) :
    cost_function estimate observable ansatz backend execute_opts params =
      ∑ k ∈ Finset.range observable.length,
        (observable.map (fun t => t.1)).getD k 0 *
          GQ.ofRat ((estimate (observable.map (fun t => t.2)) (ansatz, params) backend
            execute_opts).getD k 0) := by
  unfold cost_function
  rw [zip_mul_sum _ _ (by simpa using hlen)]
  simp [List.length_map]

/-- Witness for claim C4's amended statement at a concrete instance. -/
theorem C4_cost_function_witness :
    cost_function (fun _ _ _ _ => ([1] : List ℚ)) [((GQ.iu : GQ), idP 1)]
        () () () [0] =
      ∑ k ∈ Finset.range ([((GQ.iu : GQ), idP 1)] : SPOp 1).length,
        (([((GQ.iu : GQ), idP 1)] : SPOp 1).map (fun t => t.1)).getD k 0 *
          GQ.ofRat (([1] : List ℚ).getD k 0) :=
  C4_cost_function 1 Unit Unit Unit (fun _ _ _ _ => [1]) [(GQ.iu, idP 1)]
    () () () [0] rfl

/-- Counterexample for claim C4 as stated: the cost function does not
return the real part of the dot product — on an observable with
coefficient `i` and estimate `1` it returns `i`, not `0`. -/
theorem C4_counterexample :
    cost_function (fun _ _ _ _ => ([1] : List ℚ)) [((GQ.iu : GQ), idP 1)]
        () () () [0] ≠
      GQ.ofRat ((cost_function (fun _ _ _ _ => ([1] : List ℚ))
        [((GQ.iu : GQ), idP 1)] () () () [0]).re) := by
  intro h
  have h2 := congrArg GQ.im h
  norm_num [cost_function, GQ.iu] at h2

/-- A bit as a row/column index of a single-qubit matrix. -/
def bitFin (b : Bool) : Fin 2 := if b then 1 else 0

/-- qiskit `SparsePauliOp.to_matrix`: the dense `2^n × 2^n` matrix of an
operator — every term contributes its coefficient times the tensor-product
(Kronecker) expansion of its per-qubit `2×2` Pauli matrices, qubit `k`
acting on bit `k` of the row/column index (qiskit's little-endian
ordering); the contributions are summed. -/
def toMatrix {n : ℕ} (A : SPOp n) : Matrix (Fin (2 ^ n)) (Fin (2 ^ n)) GQ :=
  fun r c => (A.map (fun t => t.1 *
    ∏ k, pauliMat (t.2.z k) (t.2.x k) (bitFin (Nat.testBit r.val k.val))
      (bitFin (Nat.testBit c.val k.val)))).sum

/-- Python's `min` over a list (the eigenvalue array is always nonempty;
the empty case is given a junk value). -/
def pymin (l : List ℚ) : ℚ :=
  match l with
  | [] => 0
  | a :: t => t.foldl min a

/-- Source `exact_minimal_eigenvalue`: materialize the observable as a
dense matrix, hand it to the eigendecomposition routine (`np.linalg.eigh`,
an external collaborator passed in as `eigh`), and return the minimum of
the returned eigenvalues. -/
def exact_minimal_eigenvalue {n : ℕ}
    (eigh : Matrix (Fin (2 ^ n)) (Fin (2 ^ n)) GQ → List ℚ)
    (observable : SPOp n) : ℚ :=
  pymin (eigh (toMatrix observable))

/-- A rational `μ` is an eigenvalue of a matrix over the coefficients when
some nonzero vector is scaled by it. -/
def IsEigenvalue {d : ℕ} (M : Matrix (Fin d) (Fin d) GQ) (μ : ℚ) : Prop :=
  ∃ v : Fin d → GQ, v ≠ (fun _ => 0) ∧ M.mulVec v = fun r => GQ.ofRat μ * v r

theorem foldl_min_le_init (t : List ℚ) : ∀ a : ℚ, t.foldl min a ≤ a := by
  induction t with
  | nil => intro a; exact le_refl a
  | cons b t ih =>
    intro a
    rw [List.foldl_cons]
    exact le_trans (ih (min a b)) (min_le_left a b)

theorem foldl_min_mem (t : List ℚ) : ∀ a : ℚ, t.foldl min a ∈ a :: t := by
  induction t with
  | nil => intro a; simp
  | cons b t ih =>
    intro a
    rw [List.foldl_cons]
    rcases List.mem_cons.mp (ih (min a b)) with h | h
    · rcases min_choice a b with hm | hm
      · rw [h, hm]; simp
      · rw [h, hm]; simp
    · simp [List.mem_cons.mpr (Or.inr (List.mem_cons.mpr (Or.inr h)))]

theorem pymin_mem (l : List ℚ) (h : l ≠ []) : pymin l ∈ l := by
  cases l with
  | nil => exact absurd rfl h
  | cons a t => exact foldl_min_mem t a

theorem foldl_min_le_mem (t : List ℚ) : ∀ (a x : ℚ), x ∈ t → t.foldl min a ≤ x := by
  induction t with
  | nil =>
    intro a x hx
    cases hx
  | cons b t ih =>
    intro a x hx
    rw [List.foldl_cons]
    rcases List.mem_cons.mp hx with rfl | hmem
    · exact le_trans (foldl_min_le_init t (min a x)) (min_le_right a x)
    · exact ih (min a b) x hmem

theorem pymin_le (l : List ℚ) (x : ℚ) (hx : x ∈ l) : pymin l ≤ x := by
  cases l with
  | nil => cases hx
  | cons a t =>
    rcases List.mem_cons.mp hx with rfl | hmem
    · exact foldl_min_le_init t x
    · exact foldl_min_le_mem t a x hmem

/-- Claim C7: provided the eigendecomposition routine returns exactly the
eigenvalues of its input matrix (and at least one), the value computed by
`exact_minimal_eigenvalue` — the minimum over the eigenvalues of the
materialized dense matrix — is the smallest point of that matrix's
spectrum: itself an eigenvalue, and below every eigenvalue. -/
theorem C7_exact_minimal_eigenvalue (n : ℕ) (observable : SPOp n)
    (eigh : Matrix (Fin (2 ^ n)) (Fin (2 ^ n)) GQ → List ℚ)
    (hne : eigh (toMatrix observable) ≠ [])
    (hspec : ∀ μ, μ ∈ eigh (toMatrix observable) ↔
      IsEigenvalue (toMatrix observable) μ) :
    IsEigenvalue (toMatrix observable) (exact_minimal_eigenvalue eigh observable) ∧
      ∀ μ, IsEigenvalue (toMatrix observable) μ →
        exact_minimal_eigenvalue eigh observable ≤ μ := by
  constructor
  · exact (hspec _).mp (pymin_mem _ hne)
  · intro μ hμ
    exact pymin_le _ μ ((hspec μ).mpr hμ)

theorem toMatrix_id_one : toMatrix ([(1, idP 1)] : SPOp 1) = 1 := by
  funext r c
  fin_cases r <;> fin_cases c <;>
    simp [toMatrix, idP, pauliMat, bitFin, Matrix.one_apply, Fin.prod_univ_one, Nat.testBit]

theorem isEigenvalue_one_iff (μ : ℚ) :
    IsEigenvalue (1 : Matrix (Fin (2 ^ 1)) (Fin (2 ^ 1)) GQ) μ ↔ μ = 1 := by
  constructor
  · rintro ⟨v, hv, heq⟩
    rw [Matrix.one_mulVec] at heq
    have h2 : ∃ r, v r ≠ 0 := by
      by_contra hall
      push_neg at hall
      exact hv (funext hall)
    rcases h2 with ⟨r, hr⟩
    have h3 : v r = GQ.ofRat μ * v r := congrFun heq r
    have h4 : (GQ.ofRat μ - 1) * v r = 0 := by
      rw [sub_mul, ← h3]
      ring
    rcases GQ.mul_eq_zero_iff.mp h4 with h5 | h5
    · have h6 : GQ.ofRat μ = 1 := sub_eq_zero.mp h5
      have h7 := congrArg GQ.re h6
      simpa using h7
    · exact absurd h5 hr
  · rintro rfl
    refine ⟨fun _ => 1, ?_, ?_⟩
    · intro h
      have h2 := congrFun h 0
      exact one_ne_zero h2
    · rw [Matrix.one_mulVec]
      funext r
      rw [show GQ.ofRat 1 = 1 from rfl, one_mul]

/-- Witness for claim C7 at a concrete instance: the identity observable
on one qubit with an eigendecomposition routine returning its spectrum. -/
theorem C7_exact_minimal_eigenvalue_witness :
    IsEigenvalue (toMatrix ([(1, idP 1)] : SPOp 1))
        (exact_minimal_eigenvalue (fun _ => [1, 1]) ([(1, idP 1)] : SPOp 1)) ∧
      ∀ μ, IsEigenvalue (toMatrix ([(1, idP 1)] : SPOp 1)) μ →
        exact_minimal_eigenvalue (fun _ => [1, 1]) ([(1, idP 1)] : SPOp 1) ≤ μ :=
  C7_exact_minimal_eigenvalue 1 [(1, idP 1)] (fun _ => [1, 1])
    (by simp)
    (by
      intro μ
      rw [toMatrix_id_one, isEigenvalue_one_iff]
      simp)

/-- Source `build_qubit_hamiltonian` with the tensors as the nested arrays
they actually are and Python's indexing semantics made explicit: an
out-of-range access (`one_body[i][j]`, `two_body[i][j][k][l]`,
`creation_operators[i]`, `annihilation_operators[j]`) raises, modelled as
`none`; no dimension check of any kind is performed up front. -/
def buildE {n : ℕ} (one_body : List (List GQ))
    (two_body : List (List (List (List GQ))))
    (annihilation_operators creation_operators : List (SPOp n)) : Option (SPOp n) :=
  ((List.range annihilation_operators.length).foldlM (fun (acc : SPOp n × SPOp n) i =>
    (List.range annihilation_operators.length).foldlM (fun (acc : SPOp n × SPOp n) j => do
      let hij ← (one_body.get? i).bind (fun row => row.get? j)
      let cre_i ← creation_operators.get? i
      let ann_j ← annihilation_operators.get? j
      let acc1 := (acc.1 ++ smulOp hij (compose cre_i ann_j), acc.2)
      let cre_j ← creation_operators.get? j
      let a_ij := compose cre_i cre_j
      (List.range annihilation_operators.length).foldlM (fun (acc : SPOp n × SPOp n) k =>
        (List.range annihilation_operators.length).foldlM (fun (acc : SPOp n × SPOp n) l => do
          let g ← (((two_body.get? i).bind (fun t => t.get? j)).bind
            (fun t => t.get? k)).bind (fun t => t.get? l)
          let ann_k ← annihilation_operators.get? k
          let ann_l ← annihilation_operators.get? l
          let a_kl := compose ann_k ann_l
          pure (acc.1, acc.2 ++ smulOp g (compose a_ij a_kl))) acc) acc1) acc)
    (([], []) : SPOp n × SPOp n)).map
    (fun (sums : SPOp n × SPOp n) => simplify (sums.1 ++ smulOp (GQ.ofRat (1/2)) sums.2))

theorem foldlM_eq_none {α β : Type} (l : List α) (f : β → α → Option β) (x : α)
    (hx : x ∈ l) (hfail : ∀ acc, f acc x = none) :
    ∀ init, l.foldlM f init = none := by
  induction l with
  | nil => cases hx
  | cons a t ih =>
    intro init
    rcases List.mem_cons.mp hx with rfl | hmem
    · simp [List.foldlM_cons, hfail]
    · cases hfa : f init a with
      | none => simp [List.foldlM_cons, hfa]
      | some b => simp [List.foldlM_cons, hfa, ih hmem]

/-- Claim C8 (amended): when the one-body tensor has fewer rows than there
are operators, the computation fails (the first out-of-range access
raises); oversized tensors, by contrast, are not rejected — see the
counterexample. -/
theorem C8_undersized_fails (n : ℕ) (one_body : List (List GQ))
    (two_body : List (List (List (List GQ))))
    (ann cre : List (SPOp n))
    (hshort : one_body.length < ann.length) :
    buildE one_body two_body ann cre = none := by
  unfold buildE
  rw [Option.map_eq_none']
  apply foldlM_eq_none _ _ one_body.length (List.mem_range.mpr hshort)
  intro acc
  apply foldlM_eq_none _ _ 0
    (List.mem_range.mpr (lt_of_le_of_lt (Nat.zero_le _) hshort))
  intro acc2
  have hnone : one_body.get? one_body.length = none :=
    List.get?_eq_none.mpr le_rfl
  simp [hnone]

/-- Counterexample for claim C8 as stated: a 2×2 one-body tensor and a
2×2×2×2 two-body tensor fed together with a single-orbital operator list —
the dimensions do not match, yet the computation does not fail at all; the
oversized tensors are silently accepted and only their leading block is
read. -/
theorem C8_counterexample :
    ([[1, 1], [1, 1]] : List (List GQ)).length ≠
        (annihilation_operators_with_jordan_wigner 1).length ∧
      (buildE [[1, 1], [1, 1]]
        (List.replicate 2 (List.replicate 2 (List.replicate 2 (List.replicate 2 (0 : GQ)))))
        (annihilation_operators_with_jordan_wigner 1)
        ((annihilation_operators_with_jordan_wigner 1).map adjointOp)).isSome = true := by
  constructor
  · show (2 : ℕ) ≠ 1
    norm_num
  · rfl

/-- Witness for claim C8's amended statement: an empty one-body tensor
with one operator fails. -/
theorem C8_undersized_fails_witness :
    buildE ([] : List (List GQ)) [] (annihilation_operators_with_jordan_wigner 1)
      ((annihilation_operators_with_jordan_wigner 1).map adjointOp) = none :=
  C8_undersized_fails 1 [] [] (annihilation_operators_with_jordan_wigner 1)
    ((annihilation_operators_with_jordan_wigner 1).map adjointOp) (by decide)

/-- A gate of the state-preparation circuit. -/
inductive QGate where
  | ry (p : String) (q : ℕ)
  | x (q : ℕ)
  | cx (c t : ℕ)
deriving DecidableEq

/-- A parametrized circuit: a width and an ordered gate list. -/
structure QuantumCircuit where
  num_qubits : ℕ
  gates : List QGate
deriving DecidableEq

/-- Source `create_initial_quantum_circuit`: the fixed ansatz — one
`Parameter("theta")` on an `ry` applied to qubit 1, then the hard-coded
`x`/`cx` pattern. -/
def create_initial_quantum_circuit (num_qubits : ℕ) : QuantumCircuit :=
  { num_qubits := num_qubits
    gates := [QGate.ry "theta" 1, QGate.x 1, QGate.cx 1 0, QGate.x 1,
      QGate.cx 0 2, QGate.cx 1 3] }

/-- Parameter names referenced by a gate. -/
def gateParams : QGate → List String
  | QGate.ry p _ => [p]
  | QGate.x _ => []
  | QGate.cx _ _ => []

/-- The distinct free parameters of a circuit (qiskit's
`QuantumCircuit.parameters`). -/
def circuitParameters (qc : QuantumCircuit) : List String :=
  (qc.gates.bind gateParams).dedup

/-- Source `calculate_hamiltonian_energy`: creators are the adjoints of
the annihilators; each file is processed in order — extract the data,
build the Hamiltonian, minimize its expectation value starting from the
parameter vector `[0]`, record the distance, the optimizer result, the
exact minimal eigenvalue and the repulsion energy at that file's index.
External collaborators (`Utils.extract_data`, the estimator, `np.linalg.eigh`
and the scipy minimizer) are passed in as functions. -/
def calculate_hamiltonian_energy {n : ℕ} {FilePath Circuit Backend Opts R : Type}
    (extract_data : FilePath → ℚ × (ℕ → ℕ → GQ) × (ℕ → ℕ → ℕ → ℕ → GQ) × ℚ)
    (estimate : List (PTerm n) → Circuit × List ℚ → Backend → Opts → List ℚ)
    (eigh : Matrix (Fin (2 ^ n)) (Fin (2 ^ n)) GQ → List ℚ)
    (data_file_Paths : List FilePath)
    (annihilators : List (SPOp n))
    (state_circuit : Circuit) (backend : Backend)
    (minimizer : (List ℚ → GQ) → List ℚ → String → R)
    (execute_opts : Opts) :
    List ℚ × List R × List ℚ × List ℚ :=
  let creators := annihilators.map adjointOp
  data_file_Paths.foldl
    (fun (acc : List ℚ × List R × List ℚ × List ℚ) file =>
      let data := extract_data file
      let hamiltonian := build_qubit_hamiltonian data.2.1 data.2.2.1 annihilators creators
      let minimized_result := minimize_expectation_value estimate hamiltonian
        state_circuit [0] backend minimizer execute_opts
      (acc.1 ++ [data.1], acc.2.1 ++ [minimized_result],
        acc.2.2.1 ++ [exact_minimal_eigenvalue eigh hamiltonian],
        acc.2.2.2 ++ [data.2.2.2]))
    ([], [], [], [])

theorem calc_fold_eq {n : ℕ} {FilePath Circuit Backend Opts R : Type}
    (extract_data : FilePath → ℚ × (ℕ → ℕ → GQ) × (ℕ → ℕ → ℕ → ℕ → GQ) × ℚ)
    (estimate : List (PTerm n) → Circuit × List ℚ → Backend → Opts → List ℚ)
    (eigh : Matrix (Fin (2 ^ n)) (Fin (2 ^ n)) GQ → List ℚ)
    (annihilators : List (SPOp n))
    (state_circuit : Circuit) (backend : Backend)
    (minimizer : (List ℚ → GQ) → List ℚ → String → R)
    (execute_opts : Opts) :
    ∀ (files : List FilePath),
      calculate_hamiltonian_energy extract_data estimate eigh files annihilators
        state_circuit backend minimizer execute_opts =
      (files.map (fun f => (extract_data f).1),
        files.map (fun f => minimize_expectation_value estimate
          (build_qubit_hamiltonian (extract_data f).2.1 (extract_data f).2.2.1
            annihilators (annihilators.map adjointOp))
          state_circuit [0] backend minimizer execute_opts),
        files.map (fun f => exact_minimal_eigenvalue eigh
          (build_qubit_hamiltonian (extract_data f).2.1 (extract_data f).2.2.1
            annihilators (annihilators.map adjointOp))),
        files.map (fun f => (extract_data f).2.2.2)) := by
  intro files
  unfold calculate_hamiltonian_energy
  suffices h : ∀ (fs : List FilePath) (acc : List ℚ × List R × List ℚ × List ℚ),
      fs.foldl (fun (acc : List ℚ × List R × List ℚ × List ℚ) file =>
        (acc.1 ++ [(extract_data file).1],
          acc.2.1 ++ [minimize_expectation_value estimate
            (build_qubit_hamiltonian (extract_data file).2.1 (extract_data file).2.2.1
              annihilators (annihilators.map adjointOp))
            state_circuit [0] backend minimizer execute_opts],
          acc.2.2.1 ++ [exact_minimal_eigenvalue eigh
            (build_qubit_hamiltonian (extract_data file).2.1 (extract_data file).2.2.1
              annihilators (annihilators.map adjointOp))],
          acc.2.2.2 ++ [(extract_data file).2.2.2])) acc =
      (acc.1 ++ fs.map (fun f => (extract_data f).1),
        acc.2.1 ++ fs.map (fun f => minimize_expectation_value estimate
          (build_qubit_hamiltonian (extract_data f).2.1 (extract_data f).2.2.1
            annihilators (annihilators.map adjointOp))
          state_circuit [0] backend minimizer execute_opts),
        acc.2.2.1 ++ fs.map (fun f => exact_minimal_eigenvalue eigh
          (build_qubit_hamiltonian (extract_data f).2.1 (extract_data f).2.2.1
            annihilators (annihilators.map adjointOp))),
        acc.2.2.2 ++ fs.map (fun f => (extract_data f).2.2.2)) by
    rw [h files ([], [], [], [])]
    simp
  intro fs
  induction fs with
  | nil => intro acc; simp
  | cons f t ih =>
    intro acc
    rw [List.foldl_cons, ih]
    simp [List.append_assoc]

/-- Claim C9: for every list of input file paths,
`calculate_hamiltonian_energy` returns four lists — distances, optimizer
results, exact minimal eigenvalues, repulsion energies — each of length
equal to the number of file paths, and the entry at every position is
computed from the file path at that same position (the files are consumed
sequentially, in order, by a left fold). -/
theorem C9_per_file_processing {n : ℕ} {FilePath Circuit Backend Opts R : Type}
    (extract_data : FilePath → ℚ × (ℕ → ℕ → GQ) × (ℕ → ℕ → ℕ → ℕ → GQ) × ℚ)
    (estimate : List (PTerm n) → Circuit × List ℚ → Backend → Opts → List ℚ)
    (eigh : Matrix (Fin (2 ^ n)) (Fin (2 ^ n)) GQ → List ℚ)
    (files : List FilePath)
    (annihilators : List (SPOp n))
    (state_circuit : Circuit) (backend : Backend)
    (minimizer : (List ℚ → GQ) → List ℚ → String → R)
    (execute_opts : Opts) :
    calculate_hamiltonian_energy extract_data estimate eigh files annihilators
        state_circuit backend minimizer execute_opts =
      (files.map (fun f => (extract_data f).1),
        files.map (fun f => minimize_expectation_value estimate
          (build_qubit_hamiltonian (extract_data f).2.1 (extract_data f).2.2.1
            annihilators (annihilators.map adjointOp))
          state_circuit [0] backend minimizer execute_opts),
        files.map (fun f => exact_minimal_eigenvalue eigh
          (build_qubit_hamiltonian (extract_data f).2.1 (extract_data f).2.2.1
            annihilators (annihilators.map adjointOp))),
        files.map (fun f => (extract_data f).2.2.2)) ∧
      (calculate_hamiltonian_energy extract_data estimate eigh files annihilators
        state_circuit backend minimizer execute_opts).1.length = files.length ∧
      (calculate_hamiltonian_energy extract_data estimate eigh files annihilators
        state_circuit backend minimizer execute_opts).2.1.length = files.length ∧
      (calculate_hamiltonian_energy extract_data estimate eigh files annihilators
        state_circuit backend minimizer execute_opts).2.2.1.length = files.length ∧
      (calculate_hamiltonian_energy extract_data estimate eigh files annihilators
        state_circuit backend minimizer execute_opts).2.2.2.length = files.length := by
  refine ⟨calc_fold_eq extract_data estimate eigh annihilators state_circuit backend
    minimizer execute_opts files, ?_, ?_, ?_, ?_⟩ <;>
    rw [calc_fold_eq extract_data estimate eigh annihilators state_circuit backend
      minimizer execute_opts files] <;>
    simp

/-- Claim C10: every variational minimization launched by
`calculate_hamiltonian_energy` starts from the fixed parameter vector
`[0]`; `minimize_expectation_value` always hands the supplied minimizer
the method string "COBYLA"; and the ansatz built by
`create_initial_quantum_circuit` has exactly one free parameter. -/
theorem C10_fixed_start_and_method {n : ℕ} {FilePath Circuit Backend Opts R : Type}
    (extract_data : FilePath → ℚ × (ℕ → ℕ → GQ) × (ℕ → ℕ → ℕ → ℕ → GQ) × ℚ)
    (estimate : List (PTerm n) → Circuit × List ℚ → Backend → Opts → List ℚ)
    (eigh : Matrix (Fin (2 ^ n)) (Fin (2 ^ n)) GQ → List ℚ)
    (files : List FilePath)
    (annihilators : List (SPOp n))
    (state_circuit : Circuit) (backend : Backend)
    (minimizer : (List ℚ → GQ) → List ℚ → String → R)
    (execute_opts : Opts)
    (observable : SPOp n) (ansatz : Circuit) (starting_params : List ℚ)
    (num_qubits : ℕ) :
    minimize_expectation_value estimate observable ansatz starting_params backend
        minimizer execute_opts =
      minimizer (cost_function estimate observable ansatz backend execute_opts)
        starting_params "COBYLA" ∧
    (calculate_hamiltonian_energy extract_data estimate eigh files annihilators
        state_circuit backend minimizer execute_opts).2.1 =
      files.map (fun f => minimizer
        (cost_function estimate
          (build_qubit_hamiltonian (extract_data f).2.1 (extract_data f).2.2.1
            annihilators (annihilators.map adjointOp))
          state_circuit backend execute_opts)
        [0] "COBYLA") ∧
    (circuitParameters (create_initial_quantum_circuit num_qubits)).length = 1 := by
  refine ⟨rfl, ?_, rfl⟩
  rw [calc_fold_eq extract_data estimate eigh annihilators state_circuit backend
    minimizer execute_opts files]
  rfl

/-- The single-qubit `X` label. -/
def Xp1 : PTerm 1 := ⟨fun _ => false, fun _ => true⟩

/-- The single-qubit `Y` label. -/
def Yp1 : PTerm 1 := ⟨fun _ => true, fun _ => true⟩

theorem pterm1_cases (p : PTerm 1) : p = idP 1 ∨ p = Xp1 ∨ p = Zp1 ∨ p = Yp1 := by
  cases hz : p.z 0 <;> cases hx : p.x 0
  · exact Or.inl (pterm1_ext hz hx)
  · exact Or.inr (Or.inl (pterm1_ext hz hx))
  · exact Or.inr (Or.inr (Or.inl (pterm1_ext hz hx)))
  · exact Or.inr (Or.inr (Or.inr (pterm1_ext hz hx)))

theorem pauliEntry00 (q : PTerm 1) :
    (∏ k : Fin 1, pauliMat (q.z k) (q.x k)
      (bitFin (Nat.testBit (0 : Fin (2 ^ 1)).val k.val))
      (bitFin (Nat.testBit (0 : Fin (2 ^ 1)).val k.val))) =
    (if q = idP 1 then 1 else 0) + (if q = Zp1 then 1 else 0) := by
  rw [Fin.prod_univ_one]
  rcases pterm1_cases q with h | h | h | h <;> subst h
  · rw [if_pos rfl, if_neg (by decide : ¬((idP 1 : PTerm 1) = Zp1))]
    simp [pauliMat, bitFin, idP, Nat.zero_testBit, GQ.eq_iff]
  · rw [if_neg (by decide : ¬((Xp1 : PTerm 1) = idP 1)),
      if_neg (by decide : ¬((Xp1 : PTerm 1) = Zp1))]
    simp [pauliMat, bitFin, Xp1, Nat.zero_testBit, GQ.eq_iff]
  · rw [if_neg (by decide : ¬((Zp1 : PTerm 1) = idP 1)), if_pos rfl]
    simp [pauliMat, bitFin, Zp1, Nat.zero_testBit, GQ.eq_iff]
  · rw [if_neg (by decide : ¬((Yp1 : PTerm 1) = idP 1)),
      if_neg (by decide : ¬((Yp1 : PTerm 1) = Zp1))]
    simp [pauliMat, bitFin, Yp1, Nat.zero_testBit, GQ.eq_iff]

theorem toMatrix1_zero_zero (A : SPOp 1) :
    toMatrix A (0 : Fin (2 ^ 1)) 0 = coeffOf A (idP 1) + coeffOf A Zp1 := by
  induction A with
  | nil => simp [toMatrix, coeffOf]
  | cons a t ih =>
    rcases a with ⟨d, q⟩
    simp only [toMatrix, List.map_cons, List.sum_cons] at ih ⊢
    rw [coeffOf_cons, coeffOf_cons, ih, pauliEntry00]
    rcases pterm1_cases q with h | h | h | h <;> subst h
    · rw [if_pos rfl, if_pos rfl, if_neg (by decide : ¬((idP 1 : PTerm 1) = Zp1)),
        if_neg (by decide : ¬((idP 1 : PTerm 1) = Zp1))]
      ring
    · rw [if_neg (by decide : ¬((Xp1 : PTerm 1) = idP 1)),
        if_neg (by decide : ¬((Xp1 : PTerm 1) = idP 1)),
        if_neg (by decide : ¬((Xp1 : PTerm 1) = Zp1)),
        if_neg (by decide : ¬((Xp1 : PTerm 1) = Zp1))]
      ring
    · rw [if_neg (by decide : ¬((Zp1 : PTerm 1) = idP 1)),
        if_neg (by decide : ¬((Zp1 : PTerm 1) = idP 1)), if_pos rfl, if_pos rfl]
      ring
    · rw [if_neg (by decide : ¬((Yp1 : PTerm 1) = idP 1)),
        if_neg (by decide : ¬((Yp1 : PTerm 1) = idP 1)),
        if_neg (by decide : ¬((Yp1 : PTerm 1) = Zp1)),
        if_neg (by decide : ¬((Yp1 : PTerm 1) = Zp1))]
      ring

theorem coeff_aop_adj_at_id :
    coeffOf (spMul (aop 1 0) (adjointOp (aop 1 0))) (idP 1) = halfC := by
  rw [spMul_aop_adj_expand]
  simp only [coeffOf, List.map_cons, List.map_nil, List.sum_cons, List.sum_nil]
  rw [if_pos (pterm1_ext rfl rfl : pmulP (Aterm 1 0) (Aterm 1 0) = idP 1),
    if_neg (by decide : ¬pmulP (Aterm 1 0) (Bterm 1 0) = idP 1),
    if_neg (by decide : ¬pmulP (Bterm 1 0) (Aterm 1 0) = idP 1),
    if_pos (pterm1_ext rfl rfl : pmulP (Bterm 1 0) (Bterm 1 0) = idP 1),
    (by decide : pmulG (Aterm 1 0) (Aterm 1 0) = 0),
    (by decide : pmulG (Bterm 1 0) (Bterm 1 0) = 0),
    ipow_zero, conj_halfC, conj_halfiC]
  rw [GQ.eq_iff]
  constructor <;> norm_num [halfC, halfiC, GQ.iu]

/-- Counterexample for claim C5 as stated: a symmetric but complex-valued
one-body tensor (here the constant `i` on one orbital, which is trivially
symmetric) yields a non-Hermitian Hamiltonian — the dense matrix of the
built operator has the non-real value `i` in its top-left diagonal entry,
so no conjugate pairing can hold.  Symmetry of the tensor is not enough;
the spec needs the tensor real as well. -/
theorem C5_counterexample :
    GQ.conj (toMatrix (build_qubit_hamiltonian (fun _ _ => GQ.iu) (fun _ _ _ _ => 0)
        (annihilation_operators_with_jordan_wigner 1)
        ((annihilation_operators_with_jordan_wigner 1).map adjointOp))
        (0 : Fin (2 ^ 1)) 0) ≠
      toMatrix (build_qubit_hamiltonian (fun _ _ => GQ.iu) (fun _ _ _ _ => 0)
        (annihilation_operators_with_jordan_wigner 1)
        ((annihilation_operators_with_jordan_wigner 1).map adjointOp))
        (0 : Fin (2 ^ 1)) 0 := by
  intro h
  have hcoef : ∀ p : PTerm 1,
      coeffOf (build_qubit_hamiltonian (fun _ _ => GQ.iu) (fun _ _ _ _ => 0)
        (annihilation_operators_with_jordan_wigner 1)
        ((annihilation_operators_with_jordan_wigner 1).map adjointOp)) p =
      GQ.iu * coeffOf (spMul (aop 1 0) (adjointOp (aop 1 0))) p := by
    intro p
    rw [build_eq_formula, coeffOf_simplify, coeffOf_append, coeffOf_smulOp,
      coeffOf_two_body_formula_zero, mul_zero, add_zero]
    have e : one_body_formula (fun _ _ => GQ.iu)
        (annihilation_operators_with_jordan_wigner 1)
        ((annihilation_operators_with_jordan_wigner 1).map adjointOp) =
        smulOp GQ.iu (spMul (aop 1 0) (adjointOp (aop 1 0))) := rfl
    rw [e, coeffOf_smulOp]
  rw [toMatrix1_zero_zero, hcoef (idP 1), hcoef Zp1,
    coeff_aop_adj_at_id, coeff_aop_adj_at_Z] at h
  have h3 := congrArg GQ.im h
  norm_num [halfC, GQ.iu] at h3
